import Mathlib

/-!
# The in-memory monitor of `pkg/monitor/monitor.go`

A shallow embedding of the monitor: the event and sample store, the sampling
pass and the loop of `StartSampling`, the window trimming and the interval
merge of `filterSamples`, the event window of `filterEvents`, and the two
queries `Conditions` and `EventIntervals`.  The skip matching of
`cmd/openshift-tests/provider.go` follows in its own namespace.

Modelling conventions.

* `time.Time` values are instants, held as the signed distance from Go's zero
  time (`time.Time{}`); every timestamp the monitor stores went through
  `.UTC()`, which drops the monotonic reading, so `After` is the order of
  instants.
* Package `monitorapi` is not among the sources.  `monitorapi.Condition` is a
  comparable struct used as a map key; it is a type parameter `C` with decidable
  equality.  `Event` and `EventInterval` carry the fields the monitor reads and
  writes.
* Go slices of pointers are lists of values, except for the intervals built by
  `filterSamples`, which are mutated through the pointers kept in two maps:
  there a pointer is the index of the interval in the output slice.
* The two Go maps `last` and `next` are finite functions `C → Option Nat`.
-/

namespace monitor

/-! ## Data model -/

/-- An instant of `time.Time`: the offset from the zero time. -/
abbrev Time := Int

/-- Go `t.IsZero()`. -/
def Time.IsZero (t : Time) : Bool := decide (t = 0)

/-- Go `t.After(u)`. -/
def Time.After (t u : Time) : Bool := decide (u < t)

/-- Go `monitorapi.Event`, with the two fields the monitor sets in `Record`. -/
structure Event (C : Type) where
  At : Time
  Condition : C
  deriving DecidableEq, Repr

/-- Go `sample` (the field `at` is written `at_`). -/
structure Sample (C : Type) where
  at_ : Time
  conditions : List C
  deriving DecidableEq, Repr

/-- Go `monitorapi.EventInterval`, with the three fields the monitor sets. -/
structure EventInterval (C : Type) where
  Condition : C
  From : Time
  To : Time
  deriving DecidableEq, Repr

/-- Go `SamplerFunc`, `func(time.Time) []*Condition`.  A Go sampler reads the
system under test; what it can see during one sampling pass is the extra
argument of type `W`. -/
abbrev SamplerFunc (W C : Type) := W → Time → List C

/-- Go `Monitor` (without the lock). -/
structure Monitor (W C : Type) where
  interval : Int
  samplers : List (SamplerFunc W C)
  events : List (Event C)
  samples : List (Sample C)

/-- Go `NewMonitorWithInterval`. -/
def NewMonitorWithInterval {W C : Type} (interval : Int) : Monitor W C :=
  { interval := interval, samplers := [], events := [], samples := [] }

/-! ## Recording and sampling -/

/-- Go `Monitor.AddSampler`. -/
def Monitor.AddSampler {W C : Type} (m : Monitor W C) (fn : SamplerFunc W C) : Monitor W C :=
  { m with samplers := m.samplers ++ [fn] }

/-- Go `Monitor.Record`; `t` is the reading of `time.Now().UTC()`. -/
def Monitor.Record {W C : Type} (m : Monitor W C) (t : Time) (conditions : List C) : Monitor W C :=
  if conditions.length = 0 then m
  else
    { m with
      events := conditions.foldl
        (fun events condition => events ++ [{ At := t, Condition := condition }]) m.events }

/-- Go `Monitor.sample`.  `w` is what the samplers observe during this pass,
`now` the clock reading handed to the samplers and `t` the later reading that
stamps the stored sample. -/
def Monitor.sample {W C : Type} (m : Monitor W C) (w : W) (now t : Time) (hasPrevious : Bool) :
    Monitor W C × Bool :=
  let samplers := m.samplers
  let conditions : List C := samplers.foldl (fun conditions fn => conditions ++ fn w now) []
  if conditions.length = 0 ∧ hasPrevious = false then (m, false)
  else
    ({ m with samples := m.samples ++ [{ at_ := t, conditions := conditions }] },
      decide (conditions.length > 0))

/-- One pass of the sampling loop: what the samplers see and the two clock
readings of `Monitor.sample`. -/
structure Pass (W : Type) where
  world : W
  now : Time
  t : Time

/-- The body `hasConditions = m.sample(hasConditions)` of the loop in
`StartSampling`, run once for every pass of the list. -/
def runPasses {W C : Type} (m : Monitor W C) (hasConditions : Bool) :
    List (Pass W) → Monitor W C × Bool
  | [] => (m, hasConditions)
  | p :: ps =>
    let r := m.sample p.world p.now p.t hasConditions
    runPasses r.1 r.2 ps

/-- Go `Monitor.snapshot`. -/
def Monitor.snapshot {W C : Type} (m : Monitor W C) : List (Sample C) × List (Event C) :=
  (m.samples, m.events)

/-! ## Window trimming -/

/-- The loop of Go's `sort.Search` (standard library): `i, j` are the loop
variables and `h := int(uint(i+j) >> 1)` is `(i + j) / 2`.  The first argument
bounds the number of iterations; the distance `j - i` shrinks in each one, so
`j - i` iterations are always enough (`searchLoop_fuel`). -/
def searchLoop (f : Nat → Bool) : Nat → Nat → Nat → Nat
  | 0, i, _ => i
  | fuel + 1, i, j =>
    if i < j then
      let h := (i + j) / 2
      if !f h then searchLoop f fuel (h + 1) j else searchLoop f fuel i h
    else i

/-- Go `sort.Search(n, f)`. -/
def Search (n : Nat) (f : Nat → Bool) : Int := (searchLoop f n 0 n : Nat)

/-- The closure `samples[i].at.After(from)` handed to `sort.Search`. -/
def sampleAfter {C : Type} (samples : List (Sample C)) (from_ : Time) (i : Nat) : Bool :=
  match samples[i]? with
  | some s => s.at_.After from_
  | none => false

/-- The closure `events[i].At.After(from)` handed to `sort.Search`. -/
def eventAfter {C : Type} (events : List (Event C)) (from_ : Time) (i : Nat) : Bool :=
  match events[i]? with
  | some e => e.At.After from_
  | none => false

/-- The two trimming blocks of `filterSamples` (lines 169-186): `none` is the
early `return nil` of the `first == -1` test. -/
def trimSamples {C : Type} (samples : List (Sample C)) (from_ to_ : Time) :
    Option (List (Sample C)) :=
  let trimmed : Option (List (Sample C)) :=
    if !from_.IsZero then
      let first := Search samples.length (sampleAfter samples from_)
      if first = -1 then none else some (samples.drop first.toNat)
    else some samples
  match trimmed with
  | none => none
  | some samples =>
    if !to_.IsZero then some (samples.takeWhile (fun sample => !sample.at_.After to_))
    else some samples

/-! ## Interval merge -/

/-- The locals of the merge loop of `filterSamples`: the output slice and the
two maps from a condition to (the index of) its open interval. -/
structure MergeState (C : Type) where
  intervals : List (EventInterval C)
  last : C → Option Nat
  next : C → Option Nat

/-- The body of the inner loop of `filterSamples` (lines 195-207). -/
def mergeCondition {C : Type} [DecidableEq C] (at_ : Time) (st : MergeState C) (condition : C) :
    MergeState C :=
  match st.last condition with
  | some interval =>
    { st with
      intervals := st.intervals.modify (fun iv => { iv with To := at_ }) interval
      next := Function.update st.next condition (some interval) }
  | none =>
    { st with
      next := Function.update st.next condition (some st.intervals.length)
      intervals := st.intervals ++ [{ Condition := condition, From := at_, To := at_ }] }

/-- The body of the outer loop of `filterSamples` (lines 194-212): the inner
loop, then `last` is emptied and the two maps are swapped. -/
def mergeSample {C : Type} [DecidableEq C] (st : MergeState C) (sample : Sample C) :
    MergeState C :=
  let st1 := sample.conditions.foldl (mergeCondition sample.at_) st
  { intervals := st1.intervals, last := st1.next, next := fun _ => none }

/-- The merge loop of `filterSamples` (lines 191-214). -/
def mergeSamples {C : Type} [DecidableEq C] (samples : List (Sample C)) : List (EventInterval C) :=
  (samples.foldl mergeSample
    { intervals := [], last := fun _ => none, next := fun _ => none }).intervals

/-- Go `filterSamples`. -/
def filterSamples {C : Type} [DecidableEq C] (samples : List (Sample C)) (from_ to_ : Time) :
    List (EventInterval C) :=
  if samples.length = 0 then []
  else
    match trimSamples samples from_ to_ with
    | none => []
    | some samples =>
      if samples.length = 0 then [] else mergeSamples samples

/-- Go `filterEvents`. -/
def filterEvents {C : Type} (events : List (Event C)) (from_ to_ : Time) : List (Event C) :=
  if from_.IsZero ∧ to_.IsZero then events
  else
    let first := Search events.length (eventAfter events from_)
    if first = -1 then []
    else if to_.IsZero then events.drop first.toNat
    else (events.drop first.toNat).takeWhile (fun e => !e.At.After to_)

/-! ## Queries -/

/-- Go `Monitor.Conditions`. -/
def Monitor.Conditions {W C : Type} [DecidableEq C] (m : Monitor W C) (from_ to_ : Time) :
    List (EventInterval C) :=
  filterSamples m.snapshot.1 from_ to_

/-- The interval appended for one event in the loop of `Monitor.EventIntervals`
(lines 145-156). -/
def eventInterval {C : Type} (e : Event C) : EventInterval C :=
  let to_ := e.At
  let from_ := if e.At.IsZero then to_ else e.At
  { From := from_, To := to_, Condition := e.Condition }

/-- Modelled from the spec: the method `EventIntervals.Less` of package
`monitorapi` is missing from the sources; the spec has the sequence "sorted by
`From`". -/
def EventIntervals.Less {C : Type} (a b : EventInterval C) : Prop := a.From < b.From

/-- What Go's `sort.Sort` promises of its result for this `Less`: the elements
are only swapped, and afterwards no element is `Less` than an earlier one.
(The sort is not stable, so nothing is promised about ties.) -/
def SortContract {C : Type} (sort : List (EventInterval C) → List (EventInterval C)) : Prop :=
  ∀ l, (sort l).Perm l ∧ (sort l).Pairwise (fun a b => ¬ EventIntervals.Less b a)

/-- Go `Monitor.EventIntervals`; `sort` stands for `sort.Sort`.  The diagnostic
print for out-of-order events has no effect on the result and is left out. -/
def Monitor.EventIntervals {W C : Type} [DecidableEq C]
    (sort : List (EventInterval C) → List (EventInterval C))
    (m : Monitor W C) (from_ to_ : Time) : List (EventInterval C) :=
  let intervals := filterSamples m.snapshot.1 from_ to_
  let events := filterEvents m.snapshot.2 from_ to_
  let mustSort := decide (intervals.length > 0)
  let intervals := events.foldl (fun intervals e => intervals ++ [eventInterval e]) intervals
  if mustSort then sort intervals else intervals

/-- An insertion sort on `From`, one function meeting `SortContract`. -/
def sortByFrom {C : Type} (l : List (EventInterval C)) : List (EventInterval C) :=
  l.insertionSort (fun a b => a.From ≤ b.From)

variable {C : Type} [DecidableEq C]

set_option linter.unusedSectionVars false

/-! ## The merge as a recursion, and notions used by the statements -/

/-- The timestamp at which the interval of `c`, last extended at `t`, ends when the samples
`rest` follow: it is extended through every following sample as long as they list `c`. -/
def runEnd (c : C) : Time → List (Sample C) → Time
  | t, [] => t
  | t, s :: rest => if c ∈ s.conditions then runEnd c s.at_ rest else t

/-- The intervals opened by one sample stamped `at_`, for its conditions `cs` in order, as
they stand at the end of the merge.  `isOpen` tells which conditions have an open interval
from the previous sample, `ext c` is where a run of `c` starting here ends.  An occurrence of
`c` that is followed by another occurrence in the same sample loses its map entry to the later
one and is never extended. -/
def opened (isOpen : C → Bool) (at_ : Time) (ext : C → Time) : List C → List (EventInterval C)
  | [] => []
  | c :: cs =>
    if isOpen c then opened isOpen at_ ext cs
    else { Condition := c, From := at_, To := if c ∈ cs then at_ else ext c } ::
      opened isOpen at_ ext cs

/-- The merge of `filterSamples` as a recursion on the samples: the intervals opened by the
first sample, then those of the rest; `prev` holds the conditions of the sample before.
`mergeSamples_eq_mergeSpec` proves that the loop computes this. -/
def mergeSpec (prev : List C) : List (Sample C) → List (EventInterval C)
  | [] => []
  | s :: rest =>
    opened (fun c => decide (c ∈ prev)) s.at_ (fun c => runEnd c s.at_ rest) s.conditions ++
      mergeSpec s.conditions rest

/-- Invariant of the two maps of the merge loop: an entry for `c` points at an interval of the
output slice, and that interval is one of `c`. -/
def MapOk (m : C → Option Nat) (ivs : List (EventInterval C)) : Prop :=
  ∀ c p, m c = some p → ∃ iv, ivs[p]? = some iv ∧ iv.Condition = c

/-- The final state of the interval at position `p`, seen from the start of a sample: the
interval the map `m` holds for its condition is extended by `ext`, every other one is
closed. -/
def holderExt (m : C → Option Nat) (ext : C → Time → Time) (p : Nat) (iv : EventInterval C) :
    EventInterval C :=
  if m iv.Condition = some p then { iv with To := ext iv.Condition iv.To } else iv

/-- The final state of the interval at position `p`, seen from inside a sample stamped `at_`
of which the conditions `cs` are still to be processed. -/
def innerExt (last next : C → Option Nat) (ext : C → Time → Time) (at_ : Time) (cs : List C)
    (p : Nat) (iv : EventInterval C) : EventInterval C :=
  if iv.Condition ∈ cs then
    (if last iv.Condition = some p then { iv with To := ext iv.Condition at_ } else iv)
  else holderExt next ext p iv

/-- Samples `i..j` (positions in `samples`) are a maximal run of consecutive samples that all
contain the condition `c`: `c` is absent from sample `i - 1` (or `i` is the first sample) and
from sample `j + 1` (or `j` is the last one). -/
def IsMaximalRun (samples : List (Sample C)) (c : C) (i j : Nat) : Prop :=
  i ≤ j ∧ j < samples.length ∧
    (∀ k s, i ≤ k → k ≤ j → samples[k]? = some s → c ∈ s.conditions) ∧
    (∀ s, 0 < i → samples[i - 1]? = some s → c ∉ s.conditions) ∧
    (∀ s, samples[j + 1]? = some s → c ∉ s.conditions)

/-- The intervals opened while scanning the samples in order and each sample's conditions in
order, each as (condition, timestamp of the opening sample): a condition opens an interval at
a sample when the sample scanned just before (`prev` holds its conditions; nothing for the
first sample) does not list it. -/
def openings (prev : List C) : List (Sample C) → List (C × Time)
  | [] => []
  | s :: rest =>
    (s.conditions.filter (fun c => decide (c ∉ prev))).map (fun c => (c, s.at_)) ++
      openings s.conditions rest

/-- Every (condition, timestamp) met by the scan of the samples, in scan order. -/
def scanOrder : List (Sample C) → List (C × Time)
  | [] => []
  | s :: rest => s.conditions.map (fun c => (c, s.at_)) ++ scanOrder rest

/-! ## Example data -/

/-- A small store: four samples, at 1, 2, 3 and 4, and two events, at 2 and 3. -/
def demoMonitor : Monitor Unit Nat :=
  { interval := 1
    samplers := []
    events := [⟨2, 5⟩, ⟨3, 6⟩]
    samples := [⟨1, [7]⟩, ⟨2, [7]⟩, ⟨3, [7]⟩, ⟨4, []⟩] }

/-- Six passes of the sampling loop; the world of a pass tells whether the sampled node is not
ready, which it is during passes 2 to 5. -/
def demoPasses : List (Pass Bool) :=
  [⟨false, 10, 11⟩, ⟨true, 20, 21⟩, ⟨true, 30, 31⟩, ⟨true, 40, 41⟩, ⟨true, 50, 51⟩,
    ⟨false, 60, 61⟩]

/-- A monitor with two samplers that can report the same condition: the first reports
condition `7` in every pass, the second reports it during pass 1 only (the world of a pass is
its number). -/
def twoSamplerMonitor : Monitor Nat Nat :=
  ((NewMonitorWithInterval 1).AddSampler (fun _ _ => [7])).AddSampler
    (fun w _ => if w = 1 then [7] else [])

/-- A monitor with one sampler that reports whatever conditions the world of the pass holds. -/
def worldMonitor : Monitor (List Nat) Nat :=
  (NewMonitorWithInterval 15).AddSampler (fun w _ => w)

/-- Seven passes, stamped 1 to 7, five of them without any condition: nothing is reported
during passes 1, 2, 4, 5 and 7. -/
def quietPasses : List (Pass (List Nat)) :=
  [⟨[], 1, 1⟩, ⟨[], 2, 2⟩, ⟨[7], 3, 3⟩, ⟨[], 4, 4⟩, ⟨[], 5, 5⟩, ⟨[7, 8], 6, 6⟩, ⟨[], 7, 7⟩]

/-- A monitor with a negative interval and one sampler. -/
def negativeIntervalMonitor : Monitor Unit Nat :=
  (NewMonitorWithInterval (-1)).AddSampler (fun _ _ => [7])

/-! ## The sampling loop -/

/-- The conditions one sampling pass collects: the outputs of the registered samplers, each
called with the same clock reading `now`, concatenated in registration order. -/
def Monitor.passConditions {W : Type} (m : Monitor W C) (w : W) (now : Time) : List C :=
  (m.samplers.map (fun fn => fn w now)).flatten

/-- The samples a run would hold if every pass were stored. -/
def allPasses {W : Type} (m : Monitor W C) (passes : List (Pass W)) : List (Sample C) :=
  passes.map (fun p => { at_ := p.t, conditions := m.passConditions p.world p.now })

/-- The skip rule of `Monitor.sample` on a sequence of samples: a sample without conditions
is left out when the sample before it had none either (`quiet` tells whether that is so for
the first sample). -/
def skipEmpty (quiet : Bool) : List (Sample C) → List (Sample C)
  | [] => []
  | s :: rest =>
    if s.conditions.length = 0 then
      (if quiet then skipEmpty true rest else s :: skipEmpty true rest)
    else s :: skipEmpty false rest

/-- What the `select` of the loop in `StartSampling` receives: a tick of the ticker, or the
closing of the context.  Either one comes with the data of the sampling pass it sets off. -/
inductive LoopInput (W : Type) where
  | tick (p : Pass W)
  | cancel (p : Pass W)

/-- The goroutine started by `StartSampling`: the store, the local `hasConditions`, whether
the goroutine has returned, and (for the statements only) how many times it has called
`sample`. -/
structure LoopState (W C : Type) where
  m : Monitor W C
  hasConditions : Bool
  returned : Bool
  passes : Nat

/-- One round of the `for { select ... }` loop of `StartSampling` (lines 49-57): a tick falls
through to the `sample` call at the end of the body, the closing of the context calls `sample`
and returns.  Once the goroutine has returned nothing happens any more. -/
def loopStep {W : Type} (st : LoopState W C) (input : LoopInput W) : LoopState W C :=
  if st.returned then st
  else
    match input with
    | LoopInput.tick p =>
      let r := st.m.sample p.world p.now p.t st.hasConditions
      { m := r.1, hasConditions := r.2, returned := false, passes := st.passes + 1 }
    | LoopInput.cancel p =>
      let r := st.m.sample p.world p.now p.t st.hasConditions
      { m := r.1, hasConditions := r.2, returned := true, passes := st.passes + 1 }

/-- Go `Monitor.StartSampling`, followed by what the goroutine does on the given inputs.  With
a zero interval no goroutine is started.  Otherwise the goroutine first calls
`time.NewTicker(m.interval)` (standard library), which panics unless the interval is greater
than zero: `none` is that panic. -/
def Monitor.StartSampling {W : Type} (m : Monitor W C) (inputs : List (LoopInput W)) :
    Option (LoopState W C) :=
  if m.interval = 0 then
    some { m := m, hasConditions := false, returned := true, passes := 0 }
  else if m.interval < 0 then none
  else
    some (inputs.foldl loopStep
      { m := m, hasConditions := false, returned := false, passes := 0 })

/-- Invariant of the map `next` inside the merge loop, while the sample stamped `t` is being
processed: an entry for `c` points at an interval of `c` that ends at `t`. -/
def MapAt (m : C → Option Nat) (ivs : List (EventInterval C)) (t : Time) : Prop :=
  ∀ c p, m c = some p → ∃ iv, ivs[p]? = some iv ∧ iv.Condition = c ∧ iv.To = t

/-! ## The window trimming with run-time faults

The same code as `trimSamples`, `filterSamples` and `filterEvents`, with every index and slice
expression checked as Go checks it: `none` is a run-time fault (or a loop that did not finish
within its bound). -/

/-- Go index expression `s[i]`. -/
def indexChecked {α : Type} (s : List α) (i : Int) : Option α :=
  if 0 ≤ i then s[i.toNat]? else none

/-- Go slice expression `s[lo:hi]`, which faults unless `0 ≤ lo ≤ hi ≤ len(s)`. -/
def sliceChecked {α : Type} (s : List α) (lo hi : Int) : Option (List α) :=
  if 0 ≤ lo ∧ lo ≤ hi ∧ hi ≤ s.length then some ((s.take hi.toNat).drop lo.toNat) else none

/-- The loop of `sort.Search` for a closure that may fault. -/
def searchLoopChecked (f : Int → Option Bool) : Nat → Nat → Nat → Option Nat
  | 0, i, j => if i < j then none else some i
  | fuel + 1, i, j =>
    if i < j then
      let h := (i + j) / 2
      match f h with
      | none => none
      | some b =>
        if !b then searchLoopChecked f fuel (h + 1) j else searchLoopChecked f fuel i h
    else some i

/-- Go `sort.Search(n, f)` for a closure that may fault. -/
def SearchChecked (n : Nat) (f : Int → Option Bool) : Option Int :=
  (searchLoopChecked f n 0 n).map (fun i => (i : Int))

/-- The `range` loop of `filterSamples` (lines 180-185) from position `i` on, `remaining`
being the samples not yet visited. -/
def cutAfterChecked (samples : List (Sample C)) (to_ : Time) :
    List (Sample C) → Nat → Option (List (Sample C))
  | [], _ => some samples
  | sample :: remaining, i =>
    if sample.at_.After to_ then sliceChecked samples 0 i
    else cutAfterChecked samples to_ remaining (i + 1)

/-- The two trimming blocks of `filterSamples` with faults; the inner `none` is the early
`return nil`. -/
def trimSamplesChecked (samples : List (Sample C)) (from_ to_ : Time) :
    Option (Option (List (Sample C))) :=
  let trimmed : Option (Option (List (Sample C))) :=
    if !from_.IsZero then
      match SearchChecked samples.length
          (fun i => (indexChecked samples i).map (fun s => s.at_.After from_)) with
      | none => none
      | some first =>
        if first = -1 then some none
        else (sliceChecked samples first samples.length).map some
    else some (some samples)
  match trimmed with
  | none => none
  | some none => some none
  | some (some samples) =>
    if !to_.IsZero then (cutAfterChecked samples to_ samples 0).map some
    else some (some samples)

/-- Go `filterSamples` with faults. -/
def filterSamplesChecked (samples : List (Sample C)) (from_ to_ : Time) :
    Option (List (EventInterval C)) :=
  if samples.length = 0 then some []
  else
    match trimSamplesChecked samples from_ to_ with
    | none => none
    | some none => some []
    | some (some samples) => if samples.length = 0 then some [] else some (mergeSamples samples)

/-- The `for` loop of `filterEvents` (lines 231-236) from index `i` on. -/
def scanEventsChecked (events : List (Event C)) (to_ : Time) (first : Int) :
    Nat → Nat → Option (List (Event C))
  | 0, i => if i < events.length then none else sliceChecked events first events.length
  | fuel + 1, i =>
    if i < events.length then
      match indexChecked events i with
      | none => none
      | some e =>
        if e.At.After to_ then sliceChecked events first i
        else scanEventsChecked events to_ first fuel (i + 1)
    else sliceChecked events first events.length

/-- Go `filterEvents` with faults.  The loop variable starts at `first`; a negative `first`
would fault at the first index expression. -/
def filterEventsChecked (events : List (Event C)) (from_ to_ : Time) :
    Option (List (Event C)) :=
  if from_.IsZero ∧ to_.IsZero then some events
  else
    match SearchChecked events.length
        (fun i => (indexChecked events i).map (fun e => e.At.After from_)) with
    | none => none
    | some first =>
      if first = -1 then some []
      else if to_.IsZero then sliceChecked events first events.length
      else if first < 0 then none
      else scanEventsChecked events to_ first events.length first.toNat

end monitor

/-!
# Provider skip matching of `cmd/openshift-tests/provider.go`
-/

namespace openshift_tests

/-- A Go `string`: a sequence of bytes. -/
abbrev GoString := List UInt8

/-- The bytes of a string literal of the source. -/
def lit (s : String) : GoString := s.toUTF8.toList

/-- Go `exutilcloud.ClusterConfiguration` (package `cloud`, not among the sources), with the
two fields `getProviderMatchFn` reads. -/
structure ClusterConfiguration where
  ProviderName : GoString
  NetworkPluginIDs : List GoString

/-- Go `strings.Contains(s, substr)` (standard library): `substr` is within `s`. -/
def Contains (s substr : GoString) : Bool := decide (substr <:+: s)

/-- The closure `matchFn` of `getProviderMatchFn`: the loop over `skips`. -/
def matchFn (skips : List GoString) (name : GoString) : Bool :=
  match skips with
  | [] => true
  | skip :: rest => if Contains name skip then false else matchFn rest name

/-- Go `getProviderMatchFn`; `fmt.Sprintf` with `%s` splices the string between the two
literal parts. -/
def getProviderMatchFn (config : ClusterConfiguration) : GoString → Bool :=
  let skips : List GoString := []
  let skips := skips ++ [lit "[Skipped:" ++ config.ProviderName ++ lit "]"]
  let skips := config.NetworkPluginIDs.foldl
    (fun skips id => skips ++ [lit "[Skipped:Network/" ++ id ++ lit "]"]) skips
  matchFn skips

end openshift_tests

namespace monitor

variable {C : Type} [DecidableEq C]

set_option linter.unusedSectionVars false

/-! ## The merge loop computes `mergeSpec` -/

theorem MapOk.modify {m : C → Option Nat} {ivs : List (EventInterval C)} (h : MapOk m ivs)
    (t : Time) (p : Nat) : MapOk m (ivs.modify (fun iv => { iv with To := t }) p) := by
  intro c q hq
  obtain ⟨iv, hiv, hc⟩ := h c q hq
  rw [List.getElem?_modify, hiv]
  by_cases hpq : p = q
  · exact ⟨{ iv with To := t }, by simp [hpq], hc⟩
  · exact ⟨iv, by simp [hpq], hc⟩

theorem MapOk.append {m : C → Option Nat} {ivs : List (EventInterval C)} (h : MapOk m ivs)
    (l : List (EventInterval C)) : MapOk m (ivs ++ l) := by
  intro c q hq
  obtain ⟨iv, hiv, hc⟩ := h c q hq
  refine ⟨iv, ?_, hc⟩
  have hlt : q < ivs.length := by
    by_contra hge
    rw [List.getElem?_eq_none (by omega)] at hiv
    cases hiv
  rw [List.getElem?_append_left hlt]
  exact hiv

theorem foldl_mergeCondition_last (at_ : Time) (cs : List C) (st : MergeState C) :
    (cs.foldl (mergeCondition at_) st).last = st.last := by
  induction cs generalizing st with
  | nil => rfl
  | cons c cs ih =>
    rw [List.foldl_cons, ih]
    unfold mergeCondition
    split <;> rfl

theorem foldl_mergeCondition_mapOk (at_ : Time) (cs : List C) (st : MergeState C)
    (hl : MapOk st.last st.intervals) (hn : MapOk st.next st.intervals) :
    MapOk (cs.foldl (mergeCondition at_) st).next (cs.foldl (mergeCondition at_) st).intervals := by
  induction cs generalizing st with
  | nil => exact hn
  | cons c cs ih =>
    rw [List.foldl_cons]
    apply ih
    · unfold mergeCondition
      split
      · exact hl.modify at_ _
      · exact hl.append _
    · unfold mergeCondition
      split
      · rename_i p hp
        intro c' q hq
        simp only [Function.update_apply] at hq
        split at hq
        · rename_i hcc
          have hqp : p = q := Option.some.inj hq
          subst hqp
          subst hcc
          exact (hl.modify at_ p) c' p hp
        · exact (hn.modify at_ p) c' q hq
      · rename_i hp
        intro c' q hq
        simp only [Function.update_apply] at hq
        split at hq
        · rename_i hcc
          cases hq
          subst hcc
          refine ⟨{ Condition := c', From := at_, To := at_ }, ?_, rfl⟩
          simp
        · exact (hn.append _) c' q hq

theorem foldl_mergeCondition_isSome (at_ : Time) (cs : List C) (st : MergeState C) (c : C) :
    ((cs.foldl (mergeCondition at_) st).next c).isSome = (decide (c ∈ cs) || (st.next c).isSome) := by
  induction cs generalizing st with
  | nil => simp
  | cons c' cs ih =>
    rw [List.foldl_cons, ih]
    unfold mergeCondition
    by_cases hcc : c = c'
    · subst hcc
      split <;> simp
    · split <;> simp [Function.update_apply, hcc]


theorem innerExt_modify_step (last next : C → Option Nat) (ext : C → Time → Time) (at_ : Time)
    (c : C) (cs : List C) (p0 i : Nat) (iv iv0 : EventInterval C)
    (hlast : last c = some p0) (hiv0 : iv0.Condition = c) (hsame : p0 = i → iv = iv0) :
    innerExt last (Function.update next c (some p0)) ext at_ cs i
        (if p0 = i then { iv with To := at_ } else iv) =
      innerExt last next ext at_ (c :: cs) i iv := by
  by_cases hpi : p0 = i
  · have hiv := hsame hpi
    subst hiv
    subst hiv0
    subst hpi
    rw [if_pos rfl]
    by_cases hcs : iv.Condition ∈ cs
    · simp [innerExt, hlast, hcs]
    · simp [innerExt, holderExt, hlast, hcs]
  · rw [if_neg hpi]
    by_cases hc : iv.Condition = c
    · have hne : ¬ (some p0 = some i) := fun h => hpi (Option.some.inj h)
      subst hc
      by_cases hcs : iv.Condition ∈ cs
      · simp [innerExt, hlast, hne, hcs]
      · simp [innerExt, holderExt, hlast, hne, hcs, hpi]
    · have hmem : iv.Condition ∈ c :: cs ↔ iv.Condition ∈ cs := by simp [hc]
      simp only [innerExt, holderExt, hmem, Function.update_apply, if_neg hc]

theorem innerExt_append_step (last next : C → Option Nat) (ext : C → Time → Time) (at_ : Time)
    (c : C) (cs : List C) (n i : Nat) (iv : EventInterval C)
    (hlast : last c = none) (hi : i < n) :
    innerExt last (Function.update next c (some n)) ext at_ cs i iv =
      innerExt last next ext at_ (c :: cs) i iv := by
  by_cases hc : iv.Condition = c
  · have hne : ¬ (n = i) := by omega
    subst hc
    by_cases hcs : iv.Condition ∈ cs
    · simp [innerExt, hlast, hcs]
    · simp [innerExt, holderExt, hlast, hne, hcs]
  · have hmem : iv.Condition ∈ c :: cs ↔ iv.Condition ∈ cs := by simp [hc]
    simp only [innerExt, holderExt, hmem, Function.update_apply, if_neg hc]

theorem foldl_mergeCondition_ext (ext : C → Time → Time) (at_ : Time) (cs : List C)
    (st : MergeState C) (hl : MapOk st.last st.intervals) :
    (cs.foldl (mergeCondition at_) st).intervals.mapIdx
        (holderExt (cs.foldl (mergeCondition at_) st).next ext) =
      st.intervals.mapIdx (innerExt st.last st.next ext at_ cs) ++
        opened (fun c => (st.last c).isSome) at_ (fun c => ext c at_) cs := by
  induction cs generalizing st with
  | nil =>
    simp only [List.foldl_nil, opened, List.append_nil]
    congr 1
  | cons c cs ih =>
    rw [List.foldl_cons]
    cases hlast : st.last c with
    | some p0 =>
      have hst1 : mergeCondition at_ st c =
          { intervals := st.intervals.modify (fun iv => { iv with To := at_ }) p0
            last := st.last
            next := Function.update st.next c (some p0) } := by
        simp [mergeCondition, hlast]
      rw [hst1]
      have h1 := ih { intervals := st.intervals.modify (fun iv => { iv with To := at_ }) p0
                      last := st.last
                      next := Function.update st.next c (some p0) } (hl.modify at_ p0)
      rw [h1]
      have hop : opened (fun c => (st.last c).isSome) at_ (fun c => ext c at_) (c :: cs) =
          opened (fun c => (st.last c).isSome) at_ (fun c => ext c at_) cs := by
        simp [opened, hlast]
      rw [hop]
      congr 1
      apply List.ext_getElem?
      intro i
      simp only [List.getElem?_mapIdx, List.getElem?_modify]
      cases hi : st.intervals[i]? with
      | none => simp
      | some iv =>
        obtain ⟨iv0, hiv0, hc0⟩ := hl c p0 hlast
        simp only [Option.map_eq_map, Option.map_some', Option.some.injEq]
        apply innerExt_modify_step _ _ _ _ _ _ _ _ _ iv0 hlast hc0
        intro hpi
        subst hpi
        rw [hiv0] at hi
        exact (Option.some.inj hi).symm
    | none =>
      have hst1 : mergeCondition at_ st c =
          { intervals := st.intervals ++ [{ Condition := c, From := at_, To := at_ }]
            last := st.last
            next := Function.update st.next c (some st.intervals.length) } := by
        simp [mergeCondition, hlast]
      rw [hst1]
      have h1 := ih { intervals := st.intervals ++ [{ Condition := c, From := at_, To := at_ }]
                      last := st.last
                      next := Function.update st.next c (some st.intervals.length) }
                    (hl.append _)
      rw [h1]
      simp only [List.mapIdx_append, List.mapIdx_singleton, List.append_assoc]
      have hmap : st.intervals.mapIdx
            (innerExt st.last (Function.update st.next c (some st.intervals.length)) ext at_ cs) =
          st.intervals.mapIdx (innerExt st.last st.next ext at_ (c :: cs)) := by
        rw [List.mapIdx_eq_mapIdx_iff]
        intro i hi
        exact innerExt_append_step _ _ _ _ _ _ _ _ _ hlast hi
      rw [hmap]
      congr 1
      by_cases hc : c ∈ cs
      · simp [opened, hlast, innerExt, hc]
      · simp [opened, hlast, innerExt, holderExt, hc]


theorem innerExt_eq_holderExt (last : C → Option Nat) (s : Sample C) (rest : List (Sample C))
    (p : Nat) (iv : EventInterval C) :
    innerExt last (fun _ => none) (fun c t => runEnd c t rest) s.at_ s.conditions p iv =
      holderExt last (fun c t => runEnd c t (s :: rest)) p iv := by
  by_cases hc : iv.Condition ∈ s.conditions
  · simp [innerExt, holderExt, runEnd, hc]
  · simp [innerExt, holderExt, runEnd, hc]

theorem foldl_mergeSample_intervals (samples : List (Sample C)) (st : MergeState C)
    (prev : List C) (hl : MapOk st.last st.intervals) (hn : st.next = fun _ => none)
    (hprev : ∀ c, (st.last c).isSome = decide (c ∈ prev)) :
    (samples.foldl mergeSample st).intervals =
      st.intervals.mapIdx (holderExt st.last (fun c t => runEnd c t samples)) ++
        mergeSpec prev samples := by
  induction samples generalizing st prev with
  | nil =>
    simp only [List.foldl_nil, mergeSpec, List.append_nil]
    symm
    rw [List.mapIdx_eq_iff]
    intro i
    cases hi : st.intervals[i]? with
    | none => rfl
    | some iv => simp [holderExt, runEnd]
  | cons s rest ih =>
    rw [List.foldl_cons]
    have hl1 : MapOk (mergeSample st s).last (mergeSample st s).intervals :=
      foldl_mergeCondition_mapOk s.at_ s.conditions st hl (by rw [hn]; intro c p h; cases h)
    have hprev1 : ∀ c, ((mergeSample st s).last c).isSome = decide (c ∈ s.conditions) := by
      intro c
      have := foldl_mergeCondition_isSome s.at_ s.conditions st c
      simp only [mergeSample]
      rw [this, hn]
      simp
    rw [ih (mergeSample st s) s.conditions hl1 rfl hprev1]
    have hext := foldl_mergeCondition_ext (fun c t => runEnd c t rest) s.at_ s.conditions st hl
    have hopen : (fun c => (st.last c).isSome) = fun c => decide (c ∈ prev) := funext hprev
    simp only [mergeSample, mergeSpec]
    rw [hext, hn, hopen, List.append_assoc]
    congr 1
    rw [List.mapIdx_eq_mapIdx_iff]
    intro i hi
    exact innerExt_eq_holderExt _ _ _ _ _

theorem mergeSamples_eq_mergeSpec (samples : List (Sample C)) :
    mergeSamples samples = mergeSpec [] samples := by
  unfold mergeSamples
  rw [foldl_mergeSample_intervals samples _ [] (by intro c p h; cases h) rfl (by intro c; simp)]
  simp


/-! ### The binary search -/

theorem searchLoop_bounds (f : Nat → Bool) (fuel i j : Nat) (hij : i ≤ j) :
    i ≤ searchLoop f fuel i j ∧ searchLoop f fuel i j ≤ j := by
  induction fuel generalizing i j with
  | zero => exact ⟨Nat.le_refl _, hij⟩
  | succ fuel ih =>
    unfold searchLoop
    by_cases hlt : i < j
    · simp only [hlt, if_true]
      have hh : i ≤ (i + j) / 2 ∧ (i + j) / 2 < j := by omega
      cases hf : f ((i + j) / 2) with
      | true =>
        simp only [Bool.not_true, Bool.false_eq_true, if_false]
        have := ih i ((i + j) / 2) hh.1
        omega
      | false =>
        simp only [Bool.not_false, if_true]
        have := ih ((i + j) / 2 + 1) j (by omega)
        omega
    · simp only [hlt, if_false]
      exact ⟨Nat.le_refl _, hij⟩

theorem searchLoop_spec (f : Nat → Bool) (n : Nat)
    (hmono : ∀ a b, a ≤ b → b < n → f a = true → f b = true)
    (fuel i j : Nat) (hij : i ≤ j) (hjn : j ≤ n) (hfuel : j - i ≤ fuel)
    (hlo : ∀ k, k < i → f k = false) (hhi : ∀ k, j ≤ k → k < n → f k = true) :
    (∀ k, k < searchLoop f fuel i j → f k = false) ∧
      (∀ k, searchLoop f fuel i j ≤ k → k < n → f k = true) := by
  induction fuel generalizing i j with
  | zero =>
    have hji : j = i := by omega
    subst hji
    exact ⟨hlo, hhi⟩
  | succ fuel ih =>
    unfold searchLoop
    by_cases hlt : i < j
    · simp only [hlt, if_true]
      have hh : i ≤ (i + j) / 2 ∧ (i + j) / 2 < j := by omega
      cases hf : f ((i + j) / 2) with
      | true =>
        simp only [Bool.not_true, Bool.false_eq_true, if_false]
        apply ih i ((i + j) / 2) hh.1 (by omega) (by omega) hlo
        intro k hk hkn
        exact hmono _ _ hk hkn hf
      | false =>
        simp only [Bool.not_false, if_true]
        apply ih ((i + j) / 2 + 1) j (by omega) hjn (by omega) _ hhi
        intro k hk
        cases hfk : f k with
        | false => rfl
        | true =>
          have := hmono k ((i + j) / 2) (by omega) (by omega) hfk
          rw [hf] at this
          cases this
    · have hji : j = i := by omega
      subst hji
      simp only [Nat.lt_irrefl, if_false]
      exact ⟨hlo, hhi⟩

/-- The bound on the number of iterations never cuts the loop short: any two bounds of at
least `j - i` give the same result. -/
theorem searchLoop_fuel (f : Nat → Bool) (fuel fuel2 i j : Nat) (h1 : j - i ≤ fuel)
    (h2 : j - i ≤ fuel2) : searchLoop f fuel i j = searchLoop f fuel2 i j := by
  induction fuel generalizing fuel2 i j with
  | zero =>
    cases fuel2 with
    | zero => rfl
    | succ fuel2 =>
      have hji : ¬ i < j := by omega
      simp [searchLoop, hji]
  | succ fuel ih =>
    cases fuel2 with
    | zero =>
      have hji : ¬ i < j := by omega
      simp [searchLoop, hji]
    | succ fuel2 =>
      unfold searchLoop
      by_cases hlt : i < j
      · simp only [hlt, if_true]
        have hh : i ≤ (i + j) / 2 ∧ (i + j) / 2 < j := by omega
        cases hf : f ((i + j) / 2) with
        | true =>
          simp only [Bool.not_true, Bool.false_eq_true, if_false]
          exact ih fuel2 i ((i + j) / 2) (by omega) (by omega)
        | false =>
          simp only [Bool.not_false, if_true]
          exact ih fuel2 ((i + j) / 2 + 1) j (by omega) (by omega)
      · simp only [hlt, if_false]

theorem Search_ne_neg_one (n : Nat) (f : Nat → Bool) : Search n f ≠ -1 := by
  unfold Search
  omega

theorem Search_toNat (n : Nat) (f : Nat → Bool) : (Search n f).toNat = searchLoop f n 0 n := by
  unfold Search
  simp

/-- A prefix on which `p` fails followed by a suffix on which it holds: dropping the prefix is
filtering by `p`. -/
theorem drop_eq_filter_of_split {α : Type} (p : α → Bool) (l : List α) (r : Nat)
    (hlo : ∀ k a, k < r → l[k]? = some a → p a = false)
    (hhi : ∀ k a, r ≤ k → l[k]? = some a → p a = true) :
    l.drop r = l.filter p := by
  induction l generalizing r with
  | nil => simp
  | cons a l ih =>
    cases r with
    | zero =>
      rw [List.drop_zero]
      symm
      rw [List.filter_eq_self]
      intro b hb
      obtain ⟨k, hk⟩ := List.getElem?_of_mem hb
      exact hhi k b (Nat.zero_le _) hk
    | succ r =>
      have ha : p a = false := hlo 0 a (Nat.succ_pos _) (by simp)
      rw [List.drop_succ_cons, List.filter_cons_of_neg (by simp [ha])]
      apply ih
      · intro k b hk hb
        exact hlo (k + 1) b (by omega) (by simpa using hb)
      · intro k b hk hb
        exact hhi (k + 1) b (by omega) (by simpa using hb)

theorem takeWhile_eq_filter_of_pairwise {α : Type} (p : α → Bool) (l : List α)
    (h : l.Pairwise (fun a b => p b = true → p a = true)) :
    l.takeWhile p = l.filter p := by
  induction l with
  | nil => rfl
  | cons a l ih =>
    rw [List.pairwise_cons] at h
    cases hpa : p a with
    | true =>
      rw [List.takeWhile_cons_of_pos hpa, List.filter_cons_of_pos hpa, ih h.2]
    | false =>
      rw [List.takeWhile_cons_of_neg (by simp [hpa]), List.filter_cons_of_neg (by simp [hpa])]
      symm
      rw [List.filter_eq_nil_iff]
      intro b hb hpb
      have := h.1 b hb hpb
      rw [hpa] at this
      cases this

/-! ### Trimming a sorted sequence -/

theorem Time.not_after (t u : Time) : (!t.After u) = decide (t ≤ u) := by
  unfold Time.After
  by_cases h : u < t
  · simp [h, not_le.mpr h]
  · simp [h, not_lt.mp h]

theorem Time.after_iff (t u : Time) : t.After u = true ↔ u < t := by
  simp [Time.After]

theorem Time.isZero_iff (t : Time) : t.IsZero = true ↔ t = 0 := by
  simp [Time.IsZero]

theorem searchLoop_drop_eq_filter {α : Type} (key : α → Time) (l : List α) (from_ : Time)
    (f : Nat → Bool)
    (hf : ∀ i, f i = match l[i]? with
      | some s => (key s).After from_
      | none => false)
    (hsorted : l.Pairwise (fun a b => key a ≤ key b)) :
    l.drop (searchLoop f l.length 0 l.length) = l.filter (fun s => (key s).After from_) := by
  have hmono : ∀ a b, a ≤ b → b < l.length → f a = true → f b = true := by
    intro a b hab hb hfa
    rw [hf] at hfa ⊢
    have ha : a < l.length := by omega
    rw [List.getElem?_eq_getElem ha] at hfa
    rw [List.getElem?_eq_getElem hb]
    simp only [Time.After, decide_eq_true_eq] at hfa ⊢
    rcases Nat.lt_or_eq_of_le hab with hlt | heq
    · have := (List.pairwise_iff_getElem.mp hsorted) a b ha hb hlt
      exact lt_of_lt_of_le hfa this
    · subst heq
      exact hfa
  have hspec := searchLoop_spec f l.length hmono l.length 0 l.length (Nat.zero_le _)
    (Nat.le_refl _) (by omega) (by intro k hk; omega) (by intro k hk hkn; omega)
  apply drop_eq_filter_of_split
  · intro k a hk hka
    have := hspec.1 k hk
    rw [hf, hka] at this
    exact this
  · intro k a hk hka
    have hkn : k < l.length := by
      by_contra hge
      rw [List.getElem?_eq_none (by omega)] at hka
      cases hka
    have := hspec.2 k hk hkn
    rw [hf, hka] at this
    exact this

theorem trimSamples_of_sorted (samples : List (Sample C)) (from_ to_ : Time)
    (hsorted : samples.Pairwise (fun a b => a.at_ ≤ b.at_)) :
    trimSamples samples from_ to_ =
      some (samples.filter (fun s =>
        decide ((from_ = 0 ∨ from_ < s.at_) ∧ (to_ = 0 ∨ s.at_ ≤ to_)))) := by
  unfold trimSamples
  have hdrop := searchLoop_drop_eq_filter (fun s : Sample C => s.at_) samples from_
    (sampleAfter samples from_) (fun i => by unfold sampleAfter; cases samples[i]? <;> rfl) hsorted
  simp only [Search_ne_neg_one, if_false, Search_toNat, hdrop]
  by_cases hfrom : from_ = 0
  · by_cases hto : to_ = 0
    · simp [Time.IsZero, hfrom, hto]
    · simp only [Time.IsZero, hfrom, hto, decide_True, decide_False, Bool.not_true,
        Bool.false_eq_true, if_false, Bool.not_false, if_true, Option.some.injEq]
      rw [takeWhile_eq_filter_of_pairwise]
      · apply List.filter_congr
        intro s _
        simp [Time.not_after]
      · apply hsorted.imp
        intro a b hab
        simp only [Time.not_after, decide_eq_true_eq]
        exact fun h => le_trans hab h
  · by_cases hto : to_ = 0
    · simp only [Time.IsZero, hfrom, hto, decide_True, decide_False, Bool.not_true,
        Bool.false_eq_true, if_false, Bool.not_false, if_true, Option.some.injEq]
      apply List.filter_congr
      intro s _
      simp [Time.After]
    · simp only [Time.IsZero, hfrom, hto, decide_True, decide_False, Bool.not_true,
        Bool.false_eq_true, if_false, Bool.not_false, if_true, Option.some.injEq]
      rw [takeWhile_eq_filter_of_pairwise, List.filter_filter]
      · apply List.filter_congr
        intro s _
        rw [Bool.eq_iff_iff]
        simp [Time.After, hfrom, hto, and_comm]
      · apply (hsorted.sublist (List.filter_sublist _)).imp
        intro a b hab
        simp only [Time.not_after, decide_eq_true_eq]
        exact fun h => le_trans hab h

/-! ### `filterSamples` through the trimmed samples -/

theorem trimSamples_nil (from_ to_ : Time) :
    trimSamples ([] : List (Sample C)) from_ to_ = some [] := by
  unfold trimSamples
  simp only [Search_ne_neg_one, if_false, List.drop_nil]
  by_cases hfrom : from_.IsZero = true <;> by_cases hto : to_.IsZero = true <;>
    simp [hfrom, hto]

theorem trimSamples_zero (samples : List (Sample C)) :
    trimSamples samples 0 0 = some samples := by
  simp [trimSamples, Time.IsZero]

/-- The trimming never takes the early return: it always yields a slice, and the slice is a
run of consecutive samples of the input. -/
theorem trimSamples_eq_some (samples : List (Sample C)) (from_ to_ : Time) :
    ∃ l, trimSamples samples from_ to_ = some l ∧ l <:+: samples := by
  unfold trimSamples
  simp only [Search_ne_neg_one, if_false]
  by_cases hfrom : from_.IsZero = true <;> by_cases hto : to_.IsZero = true
  · exact ⟨samples, by simp [hfrom, hto], List.infix_refl _⟩
  · exact ⟨samples.takeWhile (fun sample => !sample.at_.After to_), by simp [hfrom, hto],
      (List.takeWhile_prefix _).isInfix⟩
  · exact ⟨samples.drop (Search samples.length (sampleAfter samples from_)).toNat,
      by simp [hfrom, hto], (List.drop_suffix _ _).isInfix⟩
  · exact ⟨(samples.drop (Search samples.length (sampleAfter samples from_)).toNat).takeWhile
        (fun sample => !sample.at_.After to_), by simp [hfrom, hto],
      (List.takeWhile_prefix _).isInfix.trans (List.drop_suffix _ _).isInfix⟩

theorem filterSamples_of_trim (samples l : List (Sample C)) (from_ to_ : Time)
    (h : trimSamples samples from_ to_ = some l) :
    filterSamples samples from_ to_ = mergeSpec [] l := by
  unfold filterSamples
  by_cases hlen : samples.length = 0
  · have hnil : samples = [] := List.length_eq_zero.mp hlen
    subst hnil
    rw [trimSamples_nil] at h
    cases h
    simp [mergeSpec]
  · rw [if_neg hlen, h]
    by_cases hl : l.length = 0
    · have hnil : l = [] := List.length_eq_zero.mp hl
      subst hnil
      simp [mergeSpec]
    · simp only [hl, if_false]
      exact mergeSamples_eq_mergeSpec l

theorem filterSamples_zero (samples : List (Sample C)) :
    filterSamples samples 0 0 = mergeSpec [] samples :=
  filterSamples_of_trim samples samples 0 0 (trimSamples_zero samples)

/-! ### Facts about the merged intervals -/

theorem runEnd_mem (c : C) (t : Time) (rest : List (Sample C)) :
    runEnd c t rest = t ∨ ∃ s ∈ rest, runEnd c t rest = s.at_ := by
  induction rest generalizing t with
  | nil => exact Or.inl rfl
  | cons s rest ih =>
    unfold runEnd
    by_cases hc : c ∈ s.conditions
    · rw [if_pos hc]
      rcases ih s.at_ with h | ⟨s', hs', h⟩
      · exact Or.inr ⟨s, List.mem_cons_self _ _, h⟩
      · exact Or.inr ⟨s', List.mem_cons_of_mem _ hs', h⟩
    · rw [if_neg hc]
      exact Or.inl rfl

theorem mem_opened (isOpen : C → Bool) (at_ : Time) (ext : C → Time) (cs : List C)
    (iv : EventInterval C) (h : iv ∈ opened isOpen at_ ext cs) :
    iv.Condition ∈ cs ∧ isOpen iv.Condition = false ∧ iv.From = at_ ∧
      (iv.To = at_ ∨ iv.To = ext iv.Condition) := by
  induction cs with
  | nil => simp [opened] at h
  | cons c cs ih =>
    unfold opened at h
    by_cases ho : isOpen c = true
    · rw [if_pos ho] at h
      obtain ⟨h1, h2⟩ := ih h
      exact ⟨List.mem_cons_of_mem _ h1, h2⟩
    · rw [if_neg ho, List.mem_cons] at h
      rcases h with h | h
      · subst h
        refine ⟨List.mem_cons_self _ _, by simpa using ho, rfl, ?_⟩
        by_cases hc : c ∈ cs
        · simp [hc]
        · simp [hc]
      · obtain ⟨h1, h2⟩ := ih h
        exact ⟨List.mem_cons_of_mem _ h1, h2⟩

theorem mem_mergeSpec (prev : List C) (l : List (Sample C)) (iv : EventInterval C)
    (h : iv ∈ mergeSpec prev l) :
    (∃ s ∈ l, iv.Condition ∈ s.conditions ∧ iv.From = s.at_) ∧ ∃ s ∈ l, iv.To = s.at_ := by
  induction l generalizing prev with
  | nil => simp [mergeSpec] at h
  | cons s rest ih =>
    unfold mergeSpec at h
    rw [List.mem_append] at h
    rcases h with h | h
    · obtain ⟨h1, _, h3, h4⟩ := mem_opened _ _ _ _ _ h
      refine ⟨⟨s, List.mem_cons_self _ _, h1, h3⟩, ?_⟩
      rcases h4 with h4 | h4
      · exact ⟨s, List.mem_cons_self _ _, h4⟩
      · rcases runEnd_mem iv.Condition s.at_ rest with h5 | ⟨s', hs', h5⟩
        · exact ⟨s, List.mem_cons_self _ _, h4.trans h5⟩
        · exact ⟨s', List.mem_cons_of_mem _ hs', h4.trans h5⟩
    · obtain ⟨⟨s1, hs1, h1⟩, ⟨s2, hs2, h2⟩⟩ := ih _ h
      exact ⟨⟨s1, List.mem_cons_of_mem _ hs1, h1⟩, ⟨s2, List.mem_cons_of_mem _ hs2, h2⟩⟩

/-! ### Maximal runs -/

theorem runEnd_eq_of_run (c : C) (s : Sample C) (rest : List (Sample C)) (j : Nat)
    (sj : Sample C) (hj : (s :: rest)[j]? = some sj)
    (hall : ∀ k s', 0 < k → k ≤ j → (s :: rest)[k]? = some s' → c ∈ s'.conditions)
    (hend : ∀ s', (s :: rest)[j + 1]? = some s' → c ∉ s'.conditions) :
    runEnd c s.at_ rest = sj.at_ := by
  induction rest generalizing s j with
  | nil =>
    cases j with
    | zero =>
      simp only [List.getElem?_cons_zero, Option.some.injEq] at hj
      subst hj
      rfl
    | succ j => simp at hj
  | cons s2 rest ih =>
    unfold runEnd
    cases j with
    | zero =>
      simp only [List.getElem?_cons_zero, Option.some.injEq] at hj
      subst hj
      have := hend s2 (by simp)
      rw [if_neg this]
    | succ j =>
      have hc : c ∈ s2.conditions := hall 1 s2 (by omega) (by omega) (by simp)
      rw [if_pos hc]
      apply ih s2 j
      · simpa using hj
      · intro k s' hk hkj hs'
        exact hall (k + 1) s' (by omega) (by omega) (by simpa using hs')
      · intro s' hs'
        exact hend s' (by simpa using hs')

theorem runEnd_exists_run (c : C) (s : Sample C) (rest : List (Sample C)) :
    ∃ j sj, (s :: rest)[j]? = some sj ∧
      (∀ k s', 0 < k → k ≤ j → (s :: rest)[k]? = some s' → c ∈ s'.conditions) ∧
      (∀ s', (s :: rest)[j + 1]? = some s' → c ∉ s'.conditions) ∧
      runEnd c s.at_ rest = sj.at_ := by
  induction rest generalizing s with
  | nil =>
    refine ⟨0, s, by simp, ?_, ?_, rfl⟩
    · intro k s' hk hk0
      omega
    · intro s' hs'
      simp at hs'
  | cons s2 rest ih =>
    by_cases hc : c ∈ s2.conditions
    · obtain ⟨j, sj, hj, hall, hend, hrun⟩ := ih s2
      refine ⟨j + 1, sj, by simpa using hj, ?_, ?_, ?_⟩
      · intro k s' hk hkj hs'
        cases k with
        | zero => omega
        | succ k =>
          cases k with
          | zero =>
            simp only [List.getElem?_cons_succ, List.getElem?_cons_zero,
              Option.some.injEq] at hs'
            subst hs'
            exact hc
          | succ k =>
            exact hall (k + 1) s' (by omega) (by omega) (by simpa using hs')
      · intro s' hs'
        exact hend s' (by simpa using hs')
      · unfold runEnd
        rw [if_pos hc]
        exact hrun
    · refine ⟨0, s, by simp, ?_, ?_, ?_⟩
      · intro k s' hk hk0
        omega
      · intro s' hs'
        simp only [List.getElem?_cons_succ, List.getElem?_cons_zero,
          Option.some.injEq] at hs'
        subst hs'
        exact hc
      · unfold runEnd
        rw [if_neg hc]

theorem mem_opened_iff_of_nodup (isOpen : C → Bool) (at_ : Time) (ext : C → Time) (cs : List C)
    (hnd : cs.Nodup) (iv : EventInterval C) :
    iv ∈ opened isOpen at_ ext cs ↔
      iv.Condition ∈ cs ∧ isOpen iv.Condition = false ∧ iv.From = at_ ∧
        iv.To = ext iv.Condition := by
  induction cs with
  | nil => simp [opened]
  | cons c cs ih =>
    rw [List.nodup_cons] at hnd
    unfold opened
    by_cases ho : isOpen c = true
    · rw [if_pos ho, ih hnd.2]
      constructor
      · rintro ⟨h1, h2⟩
        exact ⟨List.mem_cons_of_mem _ h1, h2⟩
      · rintro ⟨h1, h2, h3⟩
        rcases List.mem_cons.mp h1 with h | h
        · rw [h, ho] at h2
          cases h2
        · exact ⟨h, h2, h3⟩
    · rw [if_neg ho, List.mem_cons, ih hnd.2, if_neg hnd.1]
      constructor
      · rintro (h | ⟨h1, h2⟩)
        · subst h
          exact ⟨List.mem_cons_self _ _, by simpa using ho, rfl, rfl⟩
        · exact ⟨List.mem_cons_of_mem _ h1, h2⟩
      · rintro ⟨h1, h2, h3, h4⟩
        rcases List.mem_cons.mp h1 with h | h
        · left
          cases iv
          simp only at h h3 h4
          subst h h3
          simp [h4]
        · exact Or.inr ⟨h, h2, h3, h4⟩

theorem getElem?_lt_length {α : Type} {l : List α} {k : Nat} {a : α} (h : l[k]? = some a) :
    k < l.length := by
  by_contra hge
  rw [List.getElem?_eq_none (by omega)] at h
  cases h

theorem mem_mergeSpec_iff (samples : List (Sample C))
    (hnd : ∀ s ∈ samples, s.conditions.Nodup) (prev : List C) (iv : EventInterval C) :
    iv ∈ mergeSpec prev samples ↔
      ∃ i j si sj, IsMaximalRun samples iv.Condition i j ∧ (i = 0 → iv.Condition ∉ prev) ∧
        samples[i]? = some si ∧ samples[j]? = some sj ∧
        iv.From = si.at_ ∧ iv.To = sj.at_ := by
  induction samples generalizing prev with
  | nil =>
    simp only [mergeSpec, List.not_mem_nil, false_iff]
    rintro ⟨i, j, si, sj, ⟨_, hj, _⟩, _⟩
    simp at hj
  | cons s rest ih =>
    have hnd_s : s.conditions.Nodup := hnd s (List.mem_cons_self _ _)
    have hnd_rest : ∀ s' ∈ rest, s'.conditions.Nodup :=
      fun s' hs' => hnd s' (List.mem_cons_of_mem _ hs')
    unfold mergeSpec
    rw [List.mem_append, mem_opened_iff_of_nodup _ _ _ _ hnd_s, ih hnd_rest]
    constructor
    · rintro (⟨h1, h2, h3, h4⟩ | ⟨i, j, si, sj, hrun, hprev, hi, hj, hfrom, hto⟩)
      · obtain ⟨j, sj, hj, hall, hend, hrun⟩ := runEnd_exists_run iv.Condition s rest
        refine ⟨0, j, s, sj, ⟨Nat.zero_le _, getElem?_lt_length hj, ?_, ?_, hend⟩, ?_,
          by simp, hj, h3, h4.trans hrun⟩
        · intro k s' _ hkj hs'
          cases k with
          | zero =>
            simp only [List.getElem?_cons_zero, Option.some.injEq] at hs'
            subst hs'
            exact h1
          | succ k => exact hall (k + 1) s' (by omega) hkj hs'
        · intro s' h0
          omega
        · intro _
          simpa using h2
      · obtain ⟨hij, hjlen, hall, hbefore, hend⟩ := hrun
        refine ⟨i + 1, j + 1, si, sj, ⟨by omega, by simpa using hjlen, ?_, ?_, ?_⟩, ?_,
          by simpa using hi, by simpa using hj, hfrom, hto⟩
        · intro k s' hik hkj hs'
          cases k with
          | zero => omega
          | succ k => exact hall k s' (by omega) (by omega) (by simpa using hs')
        · intro s' _ hs'
          cases i with
          | zero =>
            simp only [Nat.zero_add, Nat.sub_self, List.getElem?_cons_zero,
              Option.some.injEq] at hs'
            subst hs'
            exact hprev rfl
          | succ i =>
            exact hbefore s' (by omega) (by simpa using hs')
        · intro s' hs'
          exact hend s' (by simpa using hs')
        · intro h
          omega
    · rintro ⟨i, j, si, sj, ⟨hij, hjlen, hall, hbefore, hend⟩, hprev, hi, hj, hfrom, hto⟩
      cases i with
      | zero =>
        left
        simp only [List.getElem?_cons_zero, Option.some.injEq] at hi
        subst hi
        refine ⟨hall 0 s (Nat.le_refl _) (Nat.zero_le _) (by simp), by simpa using hprev rfl,
          hfrom, ?_⟩
        rw [hto]
        symm
        apply runEnd_eq_of_run iv.Condition s rest j sj hj
        · intro k s' hk hkj hs'
          exact hall k s' (Nat.zero_le _) hkj hs'
        · exact hend
      | succ i =>
        right
        cases j with
        | zero => omega
        | succ j =>
          refine ⟨i, j, si, sj, ⟨by omega, by simpa using hjlen, ?_, ?_, ?_⟩, ?_,
            by simpa using hi, by simpa using hj, hfrom, hto⟩
          · intro k s' hik hkj hs'
            exact hall (k + 1) s' (by omega) (by omega) (by simpa using hs')
          · intro s' hpos hs'
            apply hbefore s' (by omega)
            have : i + 1 - 1 = (i - 1) + 1 := by omega
            rw [this]
            simpa using hs'
          · intro s' hs'
            exact hend s' (by simpa using hs')
          · intro hi0
            subst hi0
            exact hbefore s (by omega) (by simp)

theorem nodup_opened (isOpen : C → Bool) (at_ : Time) (ext : C → Time) (cs : List C)
    (hnd : cs.Nodup) : (opened isOpen at_ ext cs).Nodup := by
  induction cs with
  | nil => simp [opened]
  | cons c cs ih =>
    rw [List.nodup_cons] at hnd
    unfold opened
    by_cases ho : isOpen c = true
    · rw [if_pos ho]
      exact ih hnd.2
    · rw [if_neg ho, List.nodup_cons]
      refine ⟨?_, ih hnd.2⟩
      intro hmem
      exact hnd.1 (mem_opened _ _ _ _ _ hmem).1

theorem nodup_mergeSpec (samples : List (Sample C))
    (hsorted : samples.Pairwise (fun a b => a.at_ < b.at_))
    (hnd : ∀ s ∈ samples, s.conditions.Nodup) (prev : List C) :
    (mergeSpec prev samples).Nodup := by
  induction samples generalizing prev with
  | nil => simp [mergeSpec]
  | cons s rest ih =>
    rw [List.pairwise_cons] at hsorted
    unfold mergeSpec
    rw [List.nodup_append]
    refine ⟨nodup_opened _ _ _ _ (hnd s (List.mem_cons_self _ _)),
      ih hsorted.2 (fun s' hs' => hnd s' (List.mem_cons_of_mem _ hs')) _, ?_⟩
    intro iv h1 h2
    have hfrom := (mem_opened _ _ _ _ _ h1).2.2.1
    obtain ⟨⟨s', hs', _, hfrom'⟩, _⟩ := mem_mergeSpec _ _ _ h2
    have := hsorted.1 s' hs'
    rw [← hfrom, ← hfrom'] at this
    exact lt_irrefl _ this

/-! ### The combined query -/

theorem eventInterval_eq (e : Event C) :
    eventInterval e = { Condition := e.Condition, From := e.At, To := e.At } := by
  unfold eventInterval
  by_cases h : e.At.IsZero = true <;> simp [h]

theorem foldl_append_eventInterval (events : List (Event C)) (intervals : List (EventInterval C)) :
    events.foldl (fun intervals e => intervals ++ [eventInterval e]) intervals =
      intervals ++ events.map eventInterval := by
  induction events generalizing intervals with
  | nil => simp
  | cons e events ih => rw [List.foldl_cons, ih]; simp

theorem EventIntervals_of_nil {W : Type} (sort : List (EventInterval C) → List (EventInterval C))
    (m : Monitor W C) (from_ to_ : Time) (h : filterSamples m.samples from_ to_ = []) :
    m.EventIntervals sort from_ to_ = (filterEvents m.events from_ to_).map eventInterval := by
  unfold Monitor.EventIntervals Monitor.snapshot
  simp [h, foldl_append_eventInterval]

theorem EventIntervals_of_ne_nil {W : Type}
    (sort : List (EventInterval C) → List (EventInterval C))
    (m : Monitor W C) (from_ to_ : Time) (h : filterSamples m.samples from_ to_ ≠ []) :
    m.EventIntervals sort from_ to_ =
      sort (filterSamples m.samples from_ to_ ++
        (filterEvents m.events from_ to_).map eventInterval) := by
  unfold Monitor.EventIntervals Monitor.snapshot
  have hlen : (filterSamples m.samples from_ to_).length > 0 := List.length_pos.mpr h
  simp [hlen, foldl_append_eventInterval]

theorem sortByFrom_contract : SortContract (sortByFrom (C := C)) := by
  intro l
  unfold sortByFrom
  refine ⟨List.perm_insertionSort _ l, ?_⟩
  have hs : (l.insertionSort (fun a b : EventInterval C => a.From ≤ b.From)).Sorted
      (fun a b => a.From ≤ b.From) := by
    haveI : IsTotal (EventInterval C) (fun a b => a.From ≤ b.From) :=
      ⟨fun a b => le_total a.From b.From⟩
    haveI : IsTrans (EventInterval C) (fun a b => a.From ≤ b.From) :=
      ⟨fun a b c hab hbc => le_trans hab hbc⟩
    exact List.sorted_insertionSort _ l
  exact hs.imp (fun hab => by simpa [EventIntervals.Less] using hab)

theorem eq_of_map_eq_map {α β : Type} (f : α → β) (r l : List α)
    (hinj : ∀ x ∈ r, ∀ y ∈ l, f x = f y → x = y) (h : r.map f = l.map f) : r = l := by
  induction r generalizing l with
  | nil =>
    cases l with
    | nil => rfl
    | cons y l => simp at h
  | cons x r ih =>
    cases l with
    | nil => simp at h
    | cons y l =>
      simp only [List.map_cons, List.cons.injEq] at h
      have hxy : x = y := hinj x (List.mem_cons_self _ _) y (List.mem_cons_self _ _) h.1
      rw [hxy, ih l (fun a ha b hb => hinj a (List.mem_cons_of_mem _ ha) b
        (List.mem_cons_of_mem _ hb)) h.2]

/-- With pairwise distinct, increasing `From` values there is only one sorted arrangement. -/
theorem sorted_perm_unique (l r : List (EventInterval C))
    (hl : l.Pairwise (fun a b => a.From < b.From)) (hperm : r.Perm l)
    (hr : r.Pairwise (fun a b => ¬ EventIntervals.Less b a)) : r = l := by
  have hmap : r.map (fun iv => iv.From) = l.map (fun iv => iv.From) := by
    apply List.eq_of_perm_of_sorted (r := (· ≤ ·)) (hperm.map _)
    · rw [List.Sorted, List.pairwise_map]
      exact hr.imp (fun h => by simpa [EventIntervals.Less] using h)
    · rw [List.Sorted, List.pairwise_map]
      exact hl.imp (fun h => le_of_lt h)
  apply eq_of_map_eq_map (fun iv => iv.From) r l _ hmap
  intro x hx y hy hxy
  have hx' : x ∈ l := hperm.subset hx
  have hnd : (l.map (fun iv => iv.From)).Nodup := by
    rw [List.Nodup, List.pairwise_map]
    exact hl.imp (fun h => ne_of_lt h)
  exact List.inj_on_of_nodup_map hnd hx' hy hxy

/-! ### The event window on a sorted sequence -/

theorem filterEvents_of_sorted (events : List (Event C)) (from_ to_ : Time)
    (hsorted : events.Pairwise (fun a b => a.At ≤ b.At)) :
    filterEvents events from_ to_ =
      if from_ = 0 ∧ to_ = 0 then events
      else events.filter (fun e => decide (from_ < e.At ∧ (to_ = 0 ∨ e.At ≤ to_))) := by
  unfold filterEvents
  have hdrop := searchLoop_drop_eq_filter (fun e : Event C => e.At) events from_
    (eventAfter events from_) (fun i => by unfold eventAfter; cases events[i]? <;> rfl) hsorted
  simp only [Search_ne_neg_one, if_false, Search_toNat, hdrop, Time.isZero_iff]
  by_cases hboth : from_ = 0 ∧ to_ = 0
  · rw [if_pos hboth, if_pos hboth]
  · rw [if_neg hboth, if_neg hboth]
    by_cases hto : to_ = 0
    · rw [if_pos hto]
      apply List.filter_congr
      intro e _
      simp [Time.After, hto]
    · rw [if_neg hto, takeWhile_eq_filter_of_pairwise, List.filter_filter]
      · apply List.filter_congr
        intro e _
        rw [Bool.eq_iff_iff]
        simp [Time.After, hto, and_comm]
      · apply (hsorted.sublist (List.filter_sublist _)).imp
        intro a b hab
        simp only [Time.not_after, decide_eq_true_eq]
        exact fun h => le_trans hab h

/-! ### A condition seen in one sample only -/

theorem runEnd_of_absent (c : C) (t : Time) (rest : List (Sample C))
    (h : ∀ s ∈ rest, c ∉ s.conditions) : runEnd c t rest = t := by
  cases rest with
  | nil => rfl
  | cons s rest =>
    unfold runEnd
    rw [if_neg (h s (List.mem_cons_self _ _))]

theorem exists_mem_opened (isOpen : C → Bool) (at_ : Time) (ext : C → Time) (cs : List C)
    (c : C) (hc : c ∈ cs) (ho : isOpen c = false) :
    ∃ iv ∈ opened isOpen at_ ext cs, iv.Condition = c := by
  induction cs with
  | nil => simp at hc
  | cons c0 cs ih =>
    unfold opened
    by_cases hcc : c = c0
    · subst hcc
      rw [if_neg (by simp [ho])]
      exact ⟨_, List.mem_cons_self _ _, rfl⟩
    · have hmem : c ∈ cs := by
        rcases List.mem_cons.mp hc with h | h
        · exact absurd h hcc
        · exact h
      obtain ⟨iv, hiv, hcond⟩ := ih hmem
      by_cases ho0 : isOpen c0 = true
      · rw [if_pos ho0]
        exact ⟨iv, hiv, hcond⟩
      · rw [if_neg ho0]
        exact ⟨iv, List.mem_cons_of_mem _ hiv, hcond⟩

theorem mergeSpec_single_sample (l : List (Sample C)) (prev : List C) (c : C) (s : Sample C)
    (hone : l.filter (fun s' => decide (c ∈ s'.conditions)) = [s]) (hprev : c ∉ prev) :
    (∃ iv ∈ mergeSpec prev l, iv.Condition = c) ∧
      ∀ iv ∈ mergeSpec prev l, iv.Condition = c → iv.From = s.at_ ∧ iv.To = s.at_ := by
  induction l generalizing prev with
  | nil => simp at hone
  | cons s0 rest ih =>
    unfold mergeSpec
    by_cases hc : c ∈ s0.conditions
    · rw [List.filter_cons_of_pos (by simpa using hc)] at hone
      simp only [List.cons.injEq] at hone
      obtain ⟨hs, hrest⟩ := hone
      subst hs
      have habsent : ∀ s' ∈ rest, c ∉ s'.conditions := by
        intro s' hs'
        have := List.filter_eq_nil_iff.mp hrest s' hs'
        simpa using this
      constructor
      · obtain ⟨iv, hiv, hcond⟩ := exists_mem_opened (fun c => decide (c ∈ prev)) s0.at_
          (fun c => runEnd c s0.at_ rest) s0.conditions c hc (by simpa using hprev)
        exact ⟨iv, List.mem_append_left _ hiv, hcond⟩
      · intro iv hiv hcond
        rcases List.mem_append.mp hiv with h | h
        · obtain ⟨_, _, hfrom, hto⟩ := mem_opened _ _ _ _ _ h
          refine ⟨hfrom, ?_⟩
          rcases hto with hto | hto
          · exact hto
          · rw [hto, hcond]
            exact runEnd_of_absent c s0.at_ rest habsent
        · obtain ⟨⟨s', hs', hmem, _⟩, _⟩ := mem_mergeSpec _ _ _ h
          rw [hcond] at hmem
          exact absurd hmem (habsent s' hs')
    · rw [List.filter_cons_of_neg (by simpa using hc)] at hone
      obtain ⟨⟨iv, hiv, hcond⟩, hall⟩ := ih s0.conditions hone hc
      constructor
      · exact ⟨iv, List.mem_append_right _ hiv, hcond⟩
      · intro iv hiv hcond
        rcases List.mem_append.mp hiv with h | h
        · have := (mem_opened _ _ _ _ _ h).1
          rw [hcond] at this
          exact absurd this hc
        · exact hall iv h hcond

/-! ### Order of the merged intervals -/

theorem map_opened (isOpen : C → Bool) (at_ : Time) (ext : C → Time) (cs : List C) :
    (opened isOpen at_ ext cs).map (fun iv => (iv.Condition, iv.From)) =
      (cs.filter (fun c => !isOpen c)).map (fun c => (c, at_)) := by
  induction cs with
  | nil => rfl
  | cons c cs ih =>
    unfold opened
    by_cases ho : isOpen c = true
    · rw [if_pos ho, ih, List.filter_cons_of_neg (by simp [ho])]
    · rw [if_neg ho, List.map_cons, ih, List.filter_cons_of_pos (by simpa using ho)]
      rfl

theorem map_mergeSpec (prev : List C) (l : List (Sample C)) :
    (mergeSpec prev l).map (fun iv => (iv.Condition, iv.From)) = openings prev l := by
  induction l generalizing prev with
  | nil => rfl
  | cons s rest ih =>
    unfold mergeSpec openings
    rw [List.map_append, map_opened, ih]
    congr 2
    apply List.filter_congr
    intro c _
    simp

theorem openings_sublist_scanOrder (prev : List C) (l : List (Sample C)) :
    (openings prev l).Sublist (scanOrder l) := by
  induction l generalizing prev with
  | nil => exact List.Sublist.refl _
  | cons s rest ih =>
    unfold openings scanOrder
    exact ((List.filter_sublist _).map _).append (ih _)

theorem mem_openings (prev : List C) (l : List (Sample C)) (x : C × Time)
    (h : x ∈ openings prev l) : ∃ s ∈ l, x.2 = s.at_ := by
  induction l generalizing prev with
  | nil => simp [openings] at h
  | cons s rest ih =>
    unfold openings at h
    rcases List.mem_append.mp h with h | h
    · obtain ⟨c, _, hc⟩ := List.mem_map.mp h
      exact ⟨s, List.mem_cons_self _ _, by rw [← hc]⟩
    · obtain ⟨s', hs', hx⟩ := ih _ h
      exact ⟨s', List.mem_cons_of_mem _ hs', hx⟩

theorem pairwise_openings (prev : List C) (l : List (Sample C))
    (hsorted : l.Pairwise (fun a b => a.at_ ≤ b.at_)) :
    (openings prev l).Pairwise (fun x y => x.2 ≤ y.2) := by
  induction l generalizing prev with
  | nil => simp [openings]
  | cons s rest ih =>
    rw [List.pairwise_cons] at hsorted
    unfold openings
    rw [List.pairwise_append]
    refine ⟨?_, ih _ hsorted.2, ?_⟩
    · rw [List.pairwise_map]
      exact List.pairwise_of_forall (fun _ _ => le_refl _)
    · intro x hx y hy
      obtain ⟨c, _, hc⟩ := List.mem_map.mp hx
      obtain ⟨s', hs', hy'⟩ := mem_openings _ _ _ hy
      rw [← hc, hy']
      exact hsorted.1 s' hs'

/-! ### Runs of the sampling loop with one sampler -/

theorem sample_single {W : Type} (m : Monitor W C) (fn : SamplerFunc W C)
    (hs : m.samplers = [fn]) (w : W) (now t : Time) (hasPrevious : Bool) :
    m.sample w now t hasPrevious =
      if (fn w now).length = 0 ∧ hasPrevious = false then (m, false)
      else ({ m with samples := m.samples ++ [{ at_ := t, conditions := fn w now }] },
        decide ((fn w now).length > 0)) := by
  simp [Monitor.sample, hs]

theorem runPasses_append {W : Type} (m : Monitor W C) (h : Bool) (ps qs : List (Pass W)) :
    runPasses m h (ps ++ qs) = runPasses (runPasses m h ps).1 (runPasses m h ps).2 qs := by
  induction ps generalizing m h with
  | nil => rfl
  | cons p ps ih =>
    simp only [List.cons_append, runPasses]
    exact ih _ _

theorem runPasses_quiet {W : Type} (m : Monitor W C) (fn : SamplerFunc W C)
    (hs : m.samplers = [fn]) (ps : List (Pass W))
    (hq : ∀ p ∈ ps, fn p.world p.now = []) : runPasses m false ps = (m, false) := by
  induction ps with
  | nil => rfl
  | cons p ps ih =>
    have hp := hq p (List.mem_cons_self _ _)
    simp only [runPasses, sample_single m fn hs, hp, List.length_nil, and_self, if_true]
    exact ih (fun q hq' => hq q (List.mem_cons_of_mem _ hq'))

theorem runPasses_active {W : Type} (m : Monitor W C) (fn : SamplerFunc W C) (c : C)
    (hs : m.samplers = [fn]) (p : Pass W) (ps : List (Pass W)) (h : Bool)
    (ha : ∀ q ∈ p :: ps, fn q.world q.now = [c]) :
    runPasses m h (p :: ps) =
      ({ m with samples := m.samples ++
          (p :: ps).map (fun q => { at_ := q.t, conditions := [c] }) }, true) := by
  induction ps generalizing m h p with
  | nil =>
    have hp := ha p (List.mem_cons_self _ _)
    simp [runPasses, sample_single m fn hs, hp]
  | cons q ps ih =>
    have hp := ha p (List.mem_cons_self _ _)
    rw [runPasses, sample_single m fn hs, hp]
    simp only [List.length_singleton, Nat.succ_ne_zero, false_and, if_false]
    have hnext := ih { m with samples := m.samples ++ [{ at_ := p.t, conditions := [c] }] } hs q
      (decide (1 > 0)) (fun r hr => ha r (List.mem_cons_of_mem _ hr))
    rw [hnext]
    simp

theorem runPasses_after {W : Type} (m : Monitor W C) (fn : SamplerFunc W C)
    (hs : m.samplers = [fn]) (ps : List (Pass W))
    (hq : ∀ p ∈ ps, fn p.world p.now = []) :
    runPasses m true ps =
      ({ m with samples := m.samples ++
          (ps.take 1).map (fun q => { at_ := q.t, conditions := [] }) }, ps.isEmpty) := by
  cases ps with
  | nil => simp [runPasses]
  | cons p ps =>
    have hp := hq p (List.mem_cons_self _ _)
    rw [runPasses, sample_single m fn hs, hp]
    simp only [List.length_nil, Bool.true_eq_false, and_false, if_false]
    have hnext := runPasses_quiet
      { m with samples := m.samples ++ [{ at_ := p.t, conditions := [] }] } fn hs ps
      (fun q hq' => hq q (List.mem_cons_of_mem _ hq'))
    have hdec : decide (0 > 0) = false := by decide
    rw [hdec, hnext]
    simp

theorem mergeSpec_of_empty (prev : List C) (tail : List (Sample C))
    (h : ∀ s ∈ tail, s.conditions = []) : mergeSpec prev tail = [] := by
  induction tail generalizing prev with
  | nil => rfl
  | cons s tail ih =>
    unfold mergeSpec
    rw [h s (List.mem_cons_self _ _), ih _ (fun s' hs' => h s' (List.mem_cons_of_mem _ hs'))]
    rfl

theorem mergeSpec_continued {W : Type} (c : C) (l : List (Pass W)) (tail : List (Sample C))
    (h : ∀ s ∈ tail, s.conditions = []) :
    mergeSpec [c] (l.map (fun q => ({ at_ := q.t, conditions := [c] } : Sample C)) ++ tail) =
      [] := by
  induction l with
  | nil => exact mergeSpec_of_empty _ _ h
  | cons p l ih =>
    rw [List.map_cons, List.cons_append, mergeSpec, ih]
    simp [opened]

theorem runEnd_continued {W : Type} (c : C) (t : Time) (l : List (Pass W))
    (tail : List (Sample C)) (h : ∀ s ∈ tail, s.conditions = []) :
    runEnd c t (l.map (fun q => ({ at_ := q.t, conditions := [c] } : Sample C)) ++ tail) =
      match l.getLast? with
      | some p => p.t
      | none => t := by
  induction l generalizing t with
  | nil =>
    simp only [List.map_nil, List.nil_append, List.getLast?_nil]
    apply runEnd_of_absent
    intro s hs
    rw [h s hs]
    exact List.not_mem_nil _
  | cons p l ih =>
    rw [List.map_cons, List.cons_append, runEnd, if_pos (List.mem_singleton_self c), ih]
    cases l with
    | nil => rfl
    | cons q l =>
      rw [List.getLast?_cons_cons]
      cases hlast : (q :: l).getLast? with
      | none => simp at hlast
      | some r => rfl

theorem Conditions_of_phases {W : Type} (m : Monitor W C) (fn : SamplerFunc W C) (c : C)
    (hs : m.samplers = [fn]) (hsamples : m.samples = [])
    (pre mid post : List (Pass W))
    (hpre : ∀ p ∈ pre, fn p.world p.now = [])
    (hmid : ∀ p ∈ mid, fn p.world p.now = [c])
    (hpost : ∀ p ∈ post, fn p.world p.now = [])
    (pi pj : Pass W) (hpi : mid.head? = some pi) (hpj : mid.getLast? = some pj) :
    (runPasses m false (pre ++ (mid ++ post))).1.Conditions 0 0 =
      [{ Condition := c, From := pi.t, To := pj.t }] := by
  cases mid with
  | nil => simp at hpi
  | cons p0 mid' =>
    simp only [List.head?_cons, Option.some.injEq] at hpi
    subst hpi
    rw [runPasses_append, runPasses_quiet m fn hs pre hpre, runPasses_append,
      runPasses_active m fn c hs p0 mid' false hmid]
    have hafter := runPasses_after
      { m with samples := m.samples ++
          (p0 :: mid').map (fun q => ({ at_ := q.t, conditions := [c] } : Sample C)) }
      fn hs post hpost
    rw [hafter]
    simp only [Monitor.Conditions, Monitor.snapshot, hsamples, List.nil_append, List.map_cons,
      List.cons_append]
    have htail : ∀ s ∈ (post.take 1).map
        (fun q => ({ at_ := q.t, conditions := [] } : Sample C)), s.conditions = [] := by
      intro s hs'
      obtain ⟨q, _, hq⟩ := List.mem_map.mp hs'
      rw [← hq]
    rw [filterSamples_zero, mergeSpec, mergeSpec_continued c mid' _ htail]
    simp only [opened, List.not_mem_nil, decide_False, Bool.false_eq_true, if_false,
      List.append_nil, List.cons.injEq, and_true, EventInterval.mk.injEq, true_and]
    rw [runEnd_continued c p0.t mid' _ htail]
    cases mid' with
    | nil =>
      simp only [List.getLast?_singleton, Option.some.injEq] at hpj
      subst hpj
      rfl
    | cons q l =>
      rw [List.getLast?_cons_cons] at hpj
      rw [hpj]

/-! ## Interval closure -/

/-- C1 (interval closure). For samples with strictly increasing timestamps in which no sample
lists a condition twice, `filterSamples` with the unbounded window (both bounds zero) returns,
for every condition `c`, exactly one interval per maximal run `i..j` of consecutive samples
containing `c`: the interval from the timestamp of sample `i` to that of sample `j` occurs
exactly once in the result, and every returned interval is the interval of a maximal run of
its condition.  In particular `c` present at `t1, t2, t3` and absent at `t4` gives the single
interval `[t1, t3]`. -/
theorem filterSamples_interval_closure (samples : List (Sample C))
    (hsorted : samples.Pairwise (fun a b => a.at_ < b.at_))
    (hnodup : ∀ s ∈ samples, s.conditions.Nodup) :
    (∀ c i j si sj, IsMaximalRun samples c i j → samples[i]? = some si →
        samples[j]? = some sj →
        (filterSamples samples 0 0).count { Condition := c, From := si.at_, To := sj.at_ } = 1) ∧
      (∀ iv ∈ filterSamples samples 0 0,
        ∃ i j si sj, IsMaximalRun samples iv.Condition i j ∧ samples[i]? = some si ∧
          samples[j]? = some sj ∧ iv.From = si.at_ ∧ iv.To = sj.at_) ∧
      (∀ (c : C) (t1 t2 t3 t4 : Time),
        filterSamples [⟨t1, [c]⟩, ⟨t2, [c]⟩, ⟨t3, [c]⟩, ⟨t4, []⟩] 0 0 =
          [{ Condition := c, From := t1, To := t3 }]) := by
  rw [filterSamples_zero]
  refine ⟨?_, ?_, ?_⟩
  · intro c i j si sj hrun hi hj
    apply List.count_eq_one_of_mem (nodup_mergeSpec samples hsorted hnodup [])
    rw [mem_mergeSpec_iff samples hnodup]
    exact ⟨i, j, si, sj, hrun, fun _ => List.not_mem_nil _, hi, hj, rfl, rfl⟩
  · intro iv hiv
    rw [mem_mergeSpec_iff samples hnodup] at hiv
    obtain ⟨i, j, si, sj, hrun, _, hi, hj, hfrom, hto⟩ := hiv
    exact ⟨i, j, si, sj, hrun, hi, hj, hfrom, hto⟩
  · intro c t1 t2 t3 t4
    rw [filterSamples_zero]
    simp [mergeSpec, opened, runEnd]

theorem filterSamples_interval_closure_witness :
    ([⟨1, [7]⟩, ⟨2, [7]⟩, ⟨3, [7]⟩, ⟨4, []⟩] : List (Sample Nat)).Pairwise
        (fun a b => a.at_ < b.at_) ∧
      (∀ s ∈ ([⟨1, [7]⟩, ⟨2, [7]⟩, ⟨3, [7]⟩, ⟨4, []⟩] : List (Sample Nat)),
        s.conditions.Nodup) ∧
      (filterSamples ([⟨1, [7]⟩, ⟨2, [7]⟩, ⟨3, [7]⟩, ⟨4, []⟩] : List (Sample Nat)) 0 0).count
        { Condition := 7, From := 1, To := 3 } = 1 :=
  have h1 : ([⟨1, [7]⟩, ⟨2, [7]⟩, ⟨3, [7]⟩, ⟨4, []⟩] : List (Sample Nat)).Pairwise
      (fun a b => a.at_ < b.at_) := by decide
  have h2 : ∀ s ∈ ([⟨1, [7]⟩, ⟨2, [7]⟩, ⟨3, [7]⟩, ⟨4, []⟩] : List (Sample Nat)),
      s.conditions.Nodup := by decide
  ⟨h1, h2, (filterSamples_interval_closure _ h1 h2).1 7 0 2 ⟨1, [7]⟩ ⟨3, [7]⟩
    (by
      refine ⟨by decide, by decide, ?_, ?_, ?_⟩
      · intro k s hk hkj hs
        have hk3 : k = 0 ∨ k = 1 ∨ k = 2 := by omega
        rcases hk3 with h | h | h <;> subst h <;> simp at hs <;> subst hs <;> simp
      · intro s h
        omega
      · intro s hs
        simp at hs
        subst hs
        simp)
    rfl rfl⟩

/-! ## Window filtering -/

/-- C2 (window filtering). For stored samples with strictly increasing timestamps,
`Conditions(from, to)` is the unbounded merge of exactly the samples `s` with
(`from` zero or `from < s.at`) and (`to` zero or `s.at ≤ to`): a sample at `from` is left out,
a sample at `to` is kept, a zero bound does not bound.  Every returned interval then has
`from < From` when `from` is not zero and `To ≤ to` when `to` is not zero. -/
theorem Conditions_window {W : Type} (m : Monitor W C) (from_ to_ : Time)
    (hsorted : m.samples.Pairwise (fun a b => a.at_ < b.at_)) :
    m.Conditions from_ to_ =
        filterSamples (m.samples.filter (fun s =>
          decide ((from_ = 0 ∨ from_ < s.at_) ∧ (to_ = 0 ∨ s.at_ ≤ to_)))) 0 0 ∧
      ∀ iv ∈ m.Conditions from_ to_,
        (from_ ≠ 0 → from_ < iv.From) ∧ (to_ ≠ 0 → iv.To ≤ to_) := by
  have htrim := trimSamples_of_sorted m.samples from_ to_ (hsorted.imp (fun h => le_of_lt h))
  have hcond : m.Conditions from_ to_ = mergeSpec [] (m.samples.filter (fun s =>
      decide ((from_ = 0 ∨ from_ < s.at_) ∧ (to_ = 0 ∨ s.at_ ≤ to_)))) :=
    filterSamples_of_trim m.samples _ from_ to_ htrim
  refine ⟨by rw [hcond, filterSamples_zero], ?_⟩
  intro iv hiv
  rw [hcond] at hiv
  obtain ⟨⟨s1, hs1, _, hfrom⟩, ⟨s2, hs2, hto⟩⟩ := mem_mergeSpec _ _ _ hiv
  rw [List.mem_filter, decide_eq_true_eq] at hs1 hs2
  constructor
  · intro hne
    rw [hfrom]
    exact hs1.2.1.resolve_left hne
  · intro hne
    rw [hto]
    exact hs2.2.2.resolve_left hne

theorem Conditions_window_witness :
    (demoMonitor.samples.Pairwise (fun a b => a.at_ < b.at_)) ∧
      (demoMonitor.Conditions 1 3 =
          filterSamples (demoMonitor.samples.filter (fun s =>
            decide (((1 : Time) = 0 ∨ 1 < s.at_) ∧ ((3 : Time) = 0 ∨ s.at_ ≤ 3)))) 0 0 ∧
        ∀ iv ∈ demoMonitor.Conditions 1 3,
          ((1 : Time) ≠ 0 → 1 < iv.From) ∧ ((3 : Time) ≠ 0 → iv.To ≤ 3)) :=
  ⟨by decide, Conditions_window demoMonitor 1 3 (by decide)⟩

/-! ## Combined ordering -/

/-- C3 (combined ordering). Whenever `filterSamples` yields at least one interval in the
window, `EventIntervals(from, to)` is a permutation of the sampled intervals together with one
interval per event kept by `filterEvents`, so its length is the sum of the two counts, and its
`From` values are in non-decreasing order, for every sort meeting the contract of `sort.Sort`.
A sampled interval `[0, 10]` plus events at 3 and 7 gives exactly `[0,10], [3,3], [7,7]`. -/
theorem EventIntervals_sorted_perm {W : Type}
    (sort : List (EventInterval C) → List (EventInterval C)) (hsort : SortContract sort)
    (m : Monitor W C) (from_ to_ : Time) (hne : filterSamples m.samples from_ to_ ≠ []) :
    (m.EventIntervals sort from_ to_).Perm
        (filterSamples m.samples from_ to_ ++
          (filterEvents m.events from_ to_).map
            (fun e => { Condition := e.Condition, From := e.At, To := e.At })) ∧
      (m.EventIntervals sort from_ to_).length =
        (filterSamples m.samples from_ to_).length + (filterEvents m.events from_ to_).length ∧
      (m.EventIntervals sort from_ to_).Pairwise (fun a b => a.From ≤ b.From) ∧
      ∀ (interval : Int) (c e1 e2 : C),
        Monitor.EventIntervals sort
            ({ interval := interval, samplers := [], events := [⟨3, e1⟩, ⟨7, e2⟩],
               samples := [⟨0, [c]⟩, ⟨10, [c]⟩] } : Monitor W C) 0 0 =
          [{ Condition := c, From := 0, To := 10 }, { Condition := e1, From := 3, To := 3 },
            { Condition := e2, From := 7, To := 7 }] := by
  have hmapeq : (filterEvents m.events from_ to_).map
      (fun e => ({ Condition := e.Condition, From := e.At, To := e.At } : EventInterval C)) =
      (filterEvents m.events from_ to_).map eventInterval :=
    List.map_congr_left (fun e _ => (eventInterval_eq e).symm)
  rw [hmapeq, EventIntervals_of_ne_nil sort m from_ to_ hne]
  have hc := hsort (filterSamples m.samples from_ to_ ++
    (filterEvents m.events from_ to_).map eventInterval)
  refine ⟨hc.1, ?_, ?_, ?_⟩
  · rw [hc.1.length_eq]
    simp
  · exact hc.2.imp (fun h => by simpa [EventIntervals.Less] using h)
  · intro interval c e1 e2
    have hs : filterSamples [(⟨0, [c]⟩ : Sample C), ⟨10, [c]⟩] 0 0 =
        [{ Condition := c, From := 0, To := 10 }] := by
      rw [filterSamples_zero]
      simp [mergeSpec, opened, runEnd]
    have he : filterEvents [(⟨3, e1⟩ : Event C), ⟨7, e2⟩] 0 0 = [⟨3, e1⟩, ⟨7, e2⟩] := by
      simp [filterEvents, Time.IsZero]
    rw [EventIntervals_of_ne_nil sort _ 0 0 (by rw [hs]; simp), hs, he]
    have hc2 := hsort ([{ Condition := c, From := 0, To := 10 }] ++
      [(⟨3, e1⟩ : Event C), ⟨7, e2⟩].map eventInterval)
    have := sorted_perm_unique _ _ (by simp [eventInterval_eq]) hc2.1 hc2.2
    rw [this]
    simp [eventInterval_eq]

theorem EventIntervals_sorted_perm_witness :
    SortContract (sortByFrom (C := Nat)) ∧
      filterSamples demoMonitor.samples 0 0 ≠ [] ∧
      (demoMonitor.EventIntervals sortByFrom 0 0).Pairwise (fun a b => a.From ≤ b.From) :=
  ⟨sortByFrom_contract, by decide,
    (EventIntervals_sorted_perm sortByFrom sortByFrom_contract demoMonitor 0 0 (by decide)).2.2.1⟩

/-! ## Point intervals for events -/

/-- C4 (point intervals for events). Every event `e` kept by `filterEvents` for the window
has an interval in `EventIntervals` whose `From` and `To` are both `e.At` and whose condition is
that of `e`.  When `filterSamples` yields no interval, the result is exactly these point
intervals in the stored order of the events, without any sorting; so with both bounds zero
every stored event appears, in recorded order, whatever the order of the event timestamps. -/
theorem EventIntervals_point_intervals {W : Type}
    (sort : List (EventInterval C) → List (EventInterval C)) (hsort : SortContract sort)
    (m : Monitor W C) (from_ to_ : Time) :
    (∀ e ∈ filterEvents m.events from_ to_,
        ∃ iv ∈ m.EventIntervals sort from_ to_,
          iv.From = e.At ∧ iv.To = e.At ∧ iv.Condition = e.Condition) ∧
      (filterSamples m.samples from_ to_ = [] →
        m.EventIntervals sort from_ to_ =
          (filterEvents m.events from_ to_).map
            (fun e => { Condition := e.Condition, From := e.At, To := e.At })) ∧
      (filterSamples m.samples 0 0 = [] →
        m.EventIntervals sort 0 0 =
          m.events.map (fun e => { Condition := e.Condition, From := e.At, To := e.At })) := by
  have hmapeq : ∀ l : List (Event C), l.map
      (fun e => ({ Condition := e.Condition, From := e.At, To := e.At } : EventInterval C)) =
      l.map eventInterval :=
    fun l => List.map_congr_left (fun e _ => (eventInterval_eq e).symm)
  refine ⟨?_, ?_, ?_⟩
  · intro e he
    refine ⟨eventInterval e, ?_, by simp [eventInterval_eq]⟩
    have hmem : eventInterval e ∈ (filterEvents m.events from_ to_).map eventInterval :=
      List.mem_map_of_mem _ he
    by_cases hnil : filterSamples m.samples from_ to_ = []
    · rw [EventIntervals_of_nil sort m from_ to_ hnil]
      exact hmem
    · rw [EventIntervals_of_ne_nil sort m from_ to_ hnil]
      exact (hsort _).1.mem_iff.mpr (List.mem_append_right _ hmem)
  · intro hnil
    rw [EventIntervals_of_nil sort m from_ to_ hnil, hmapeq]
  · intro hnil
    rw [EventIntervals_of_nil sort m 0 0 hnil, hmapeq]
    simp [filterEvents, Time.IsZero]

theorem EventIntervals_point_intervals_witness :
    SortContract (sortByFrom (C := Nat)) ∧
      ∀ e ∈ filterEvents demoMonitor.events 1 3,
        ∃ iv ∈ demoMonitor.EventIntervals sortByFrom 1 3,
          iv.From = e.At ∧ iv.To = e.At ∧ iv.Condition = e.Condition :=
  ⟨sortByFrom_contract,
    (EventIntervals_point_intervals sortByFrom sortByFrom_contract demoMonitor 1 3).1⟩

/-! ## Event window -/

/-- C5 (event window). For events in non-decreasing timestamp order, each stamped after the
zero time (as every event is that `Record` stores: its timestamp is a reading of the clock),
and every `from`, `to`: `filterEvents` returns, in stored order, exactly the events `e` with
(`from` zero or `e.At` strictly after `from`) and (`to` zero or `e.At` not after `to`).  A zero
bound is unbounded on its side, the lower bound is exclusive and the upper bound inclusive. -/
theorem filterEvents_window (events : List (Event C)) (from_ to_ : Time)
    (hsorted : events.Pairwise (fun a b => a.At ≤ b.At))
    (hclock : ∀ e ∈ events, 0 < e.At) :
    filterEvents events from_ to_ =
      events.filter (fun e =>
        decide ((from_ = 0 ∨ from_ < e.At) ∧ (to_ = 0 ∨ e.At ≤ to_))) := by
  rw [filterEvents_of_sorted events from_ to_ hsorted]
  by_cases hboth : from_ = 0 ∧ to_ = 0
  · rw [if_pos hboth]
    symm
    rw [List.filter_eq_self]
    intro e _
    simp [hboth.1, hboth.2]
  · rw [if_neg hboth]
    apply List.filter_congr
    intro e he
    have hp := hclock e he
    by_cases hfrom : from_ = 0
    · subst hfrom
      simp [hp]
    · simp [hfrom]

theorem filterEvents_window_witness :
    demoMonitor.events.Pairwise (fun a b => a.At ≤ b.At) ∧
      (∀ e ∈ demoMonitor.events, 0 < e.At) ∧
      filterEvents demoMonitor.events 0 2 = [⟨2, 5⟩] ∧
      filterEvents demoMonitor.events 0 2 =
        demoMonitor.events.filter (fun e =>
          decide (((0 : Time) = 0 ∨ 0 < e.At) ∧ ((2 : Time) = 0 ∨ e.At ≤ 2))) :=
  ⟨by decide, by decide, by decide,
    filterEvents_window demoMonitor.events 0 2 (by decide) (by decide)⟩

/-! ## Malformed or unmatched window -/

/-- C6 (malformed or unmatched window). For a store with strictly increasing sample timestamps
and non-decreasing event timestamps: for non-zero `from` and `to` with `to` before `from`, both
`Conditions(from, to)` and `EventIntervals(from, to)` are empty; for non-zero `from` and `to`,
`Conditions(from, to)` is empty whenever no stored sample has `from < at ≤ to`; and, a zero
bound being no bound, it is empty whenever no stored sample lies in the window. -/
theorem malformed_window_empty {W : Type}
    (sort : List (EventInterval C) → List (EventInterval C)) (m : Monitor W C)
    (from_ to_ : Time)
    (hsamples : m.samples.Pairwise (fun a b => a.at_ < b.at_))
    (hevents : m.events.Pairwise (fun a b => a.At ≤ b.At)) :
    (from_ ≠ 0 → to_ ≠ 0 → to_ < from_ →
        m.Conditions from_ to_ = [] ∧ m.EventIntervals sort from_ to_ = []) ∧
      (from_ ≠ 0 → to_ ≠ 0 → (∀ s ∈ m.samples, ¬ (from_ < s.at_ ∧ s.at_ ≤ to_)) →
        m.Conditions from_ to_ = []) ∧
      ((∀ s ∈ m.samples, ¬ ((from_ = 0 ∨ from_ < s.at_) ∧ (to_ = 0 ∨ s.at_ ≤ to_))) →
        m.Conditions from_ to_ = []) := by
  have htrim := trimSamples_of_sorted m.samples from_ to_ (hsamples.imp (fun h => le_of_lt h))
  have hgen : (∀ s ∈ m.samples, ¬ ((from_ = 0 ∨ from_ < s.at_) ∧ (to_ = 0 ∨ s.at_ ≤ to_))) →
      filterSamples m.samples from_ to_ = [] := by
    intro h
    rw [filterSamples_of_trim m.samples _ from_ to_ htrim]
    have hnil : m.samples.filter (fun s =>
        decide ((from_ = 0 ∨ from_ < s.at_) ∧ (to_ = 0 ∨ s.at_ ≤ to_))) = [] := by
      rw [List.filter_eq_nil_iff]
      intro s hs
      simpa using h s hs
    rw [hnil]
    rfl
  have hcond : from_ ≠ 0 → to_ ≠ 0 → (∀ s ∈ m.samples, ¬ (from_ < s.at_ ∧ s.at_ ≤ to_)) →
      filterSamples m.samples from_ to_ = [] := by
    intro hfrom hto h
    apply hgen
    intro s hs
    simpa [hfrom, hto] using h s hs
  refine ⟨?_, hcond, hgen⟩
  intro hfrom hto hlt
  have hnone : ∀ s ∈ m.samples, ¬ (from_ < s.at_ ∧ s.at_ ≤ to_) := by
    intro s _ h
    exact lt_irrefl _ (lt_of_lt_of_le (lt_trans hlt h.1) h.2)
  refine ⟨hcond hfrom hto hnone, ?_⟩
  rw [EventIntervals_of_nil sort m from_ to_ (hcond hfrom hto hnone),
    filterEvents_of_sorted m.events from_ to_ hevents, if_neg (fun h => hfrom h.1)]
  have hnil : m.events.filter (fun e => decide (from_ < e.At ∧ (to_ = 0 ∨ e.At ≤ to_))) = [] := by
    rw [List.filter_eq_nil_iff]
    intro e _
    simp only [hto, false_or, decide_eq_true_eq, not_and, not_le]
    intro h
    exact lt_trans hlt h
  rw [hnil]
  rfl

theorem malformed_window_empty_witness :
    demoMonitor.samples.Pairwise (fun a b => a.at_ < b.at_) ∧
      demoMonitor.events.Pairwise (fun a b => a.At ≤ b.At) ∧
      (3 : Time) ≠ 0 ∧ (2 : Time) ≠ 0 ∧ (2 : Time) < 3 ∧
      demoMonitor.Conditions 3 2 = [] ∧ demoMonitor.EventIntervals sortByFrom 3 2 = [] :=
  ⟨by decide, by decide, by decide, by decide, by decide,
    (malformed_window_empty sortByFrom demoMonitor 3 2 (by decide) (by decide)).1
      (by decide) (by decide) (by decide)⟩

/-! ## Duplicate conditions -/

/-- C7 fails on the code when one sample lists a condition twice.  Two samplers both report
condition `7` in the pass stamped 1 and one of them reports it again in the pass stamped 2:
the store then holds the samples `(1, [7, 7])` and `(2, [7])`, and `Conditions` returns the
two intervals `[1, 1]` and `[1, 2]` for the same condition.  They overlap, and no sample lies
strictly between the end of the first and the start of the second. -/
theorem Conditions_duplicate_condition :
    (runPasses twoSamplerMonitor false [⟨1, 1, 1⟩, ⟨2, 2, 2⟩]).1.samples =
        [⟨1, [7, 7]⟩, ⟨2, [7]⟩] ∧
      (runPasses twoSamplerMonitor false [⟨1, 1, 1⟩, ⟨2, 2, 2⟩]).1.Conditions 0 0 =
        [{ Condition := 7, From := 1, To := 1 }, { Condition := 7, From := 1, To := 2 }] ∧
      ¬ ∃ s ∈ (runPasses twoSamplerMonitor false [⟨1, 1, 1⟩, ⟨2, 2, 2⟩]).1.samples,
        1 < s.at_ ∧ s.at_ < 1 ∧ 7 ∉ s.conditions := by
  decide

/-! ## Single-sample interval -/

/-- C8 (single-sample interval). Whatever the samples and the window, when a condition `c` is
listed by exactly one sample `s` of the trimmed window (the slice `trimSamples` yields, which
it always does), `Conditions` returns an interval for `c`, and every interval it returns for
`c` has `From = To = s.at`. -/
theorem Conditions_single_sample {W : Type} (m : Monitor W C) (from_ to_ : Time)
    (trimmed : List (Sample C)) (c : C) (s : Sample C)
    (htrim : trimSamples m.samples from_ to_ = some trimmed)
    (hone : trimmed.filter (fun s' => decide (c ∈ s'.conditions)) = [s]) :
    (∃ iv ∈ m.Conditions from_ to_, iv.Condition = c) ∧
      ∀ iv ∈ m.Conditions from_ to_, iv.Condition = c → iv.From = s.at_ ∧ iv.To = s.at_ := by
  have hcond : m.Conditions from_ to_ = mergeSpec [] trimmed :=
    filterSamples_of_trim m.samples trimmed from_ to_ htrim
  rw [hcond]
  exact mergeSpec_single_sample trimmed [] c s hone (List.not_mem_nil _)

theorem Conditions_single_sample_witness :
    trimSamples demoMonitor.samples 2 3 = some [⟨3, [7]⟩] ∧
      ([⟨3, [7]⟩] : List (Sample Nat)).filter (fun s' => decide (7 ∈ s'.conditions)) =
        [⟨3, [7]⟩] ∧
      ((∃ iv ∈ demoMonitor.Conditions 2 3, iv.Condition = 7) ∧
        ∀ iv ∈ demoMonitor.Conditions 2 3, iv.Condition = 7 → iv.From = 3 ∧ iv.To = 3) :=
  ⟨by decide, by decide,
    Conditions_single_sample demoMonitor 2 3 [⟨3, [7]⟩] 7 ⟨3, [7]⟩ (by decide) (by decide)⟩

/-! ## Order of first sampling -/

/-- C9 (order of first sampling). Whatever the samples and the window, `Conditions` lists the
intervals in the order in which they are opened by the scan of the trimmed samples (samples in
order, and within a sample its conditions in order): paired with their `From`, the returned
intervals are exactly the openings of the scan, a subsequence of the scan itself.  Hence for
samples with non-decreasing timestamps the `From` values are non-decreasing. -/
theorem Conditions_first_sampling_order {W : Type} (m : Monitor W C) (from_ to_ : Time)
    (trimmed : List (Sample C)) (htrim : trimSamples m.samples from_ to_ = some trimmed) :
    (m.Conditions from_ to_).map (fun iv => (iv.Condition, iv.From)) = openings [] trimmed ∧
      (openings [] trimmed).Sublist (scanOrder trimmed) ∧
      (m.samples.Pairwise (fun a b => a.at_ ≤ b.at_) →
        ((m.Conditions from_ to_).map (fun iv => iv.From)).Pairwise (fun a b => a ≤ b)) := by
  have hcond : m.Conditions from_ to_ = mergeSpec [] trimmed :=
    filterSamples_of_trim m.samples trimmed from_ to_ htrim
  have hmap := map_mergeSpec [] trimmed
  refine ⟨by rw [hcond, hmap], openings_sublist_scanOrder [] trimmed, ?_⟩
  intro hsorted
  obtain ⟨l, hl, hinfix⟩ := trimSamples_eq_some m.samples from_ to_
  rw [htrim] at hl
  cases hl
  have hsorted' := hsorted.sublist hinfix.sublist
  have hpo := pairwise_openings [] trimmed hsorted'
  rw [← hmap, List.pairwise_map] at hpo
  rw [hcond, List.pairwise_map]
  exact hpo

theorem Conditions_first_sampling_order_witness :
    trimSamples demoMonitor.samples 1 3 = some [⟨2, [7]⟩, ⟨3, [7]⟩] ∧
      (demoMonitor.Conditions 1 3).map (fun iv => (iv.Condition, iv.From)) =
        openings [] [⟨2, [7]⟩, ⟨3, [7]⟩] :=
  ⟨by decide,
    (Conditions_first_sampling_order demoMonitor 1 3 [⟨2, [7]⟩, ⟨3, [7]⟩] (by decide)).1⟩

/-! ## End-to-end scenario -/

/-- C10 (end-to-end scenario). Start from the empty store with `hasConditions = false` and one
registered sampler, and run `n` scheduler passes; the sampler returns the single condition `c`
on passes `i..j` (counted from 1, `1 ≤ i ≤ j ≤ n`) and nothing on the other passes.  Then
`Conditions(zero, zero)` returns exactly one interval: condition `c`, from the timestamp of
pass `i` to the timestamp of pass `j`.  (The order of the timestamps plays no part.) -/
theorem Conditions_end_to_end {W : Type} (interval : Int) (fn : SamplerFunc W C) (c : C)
    (passes : List (Pass W)) (i j : Nat) (pi pj : Pass W)
    (hi : 1 ≤ i) (hij : i ≤ j) (hjn : j ≤ passes.length)
    (hfn : ∀ k p, passes[k]? = some p →
      fn p.world p.now = if i ≤ k + 1 ∧ k + 1 ≤ j then [c] else [])
    (hpi : passes[i - 1]? = some pi) (hpj : passes[j - 1]? = some pj) :
    (runPasses ((NewMonitorWithInterval interval : Monitor W C).AddSampler fn) false
        passes).1.Conditions 0 0 =
      [{ Condition := c, From := pi.t, To := pj.t }] := by
  have hsplit : passes =
      passes.take (i - 1) ++ (((passes.drop (i - 1)).take (j - i + 1)) ++ passes.drop j) := by
    have h1 : passes.drop j = (passes.drop (i - 1)).drop (j - i + 1) := by
      rw [List.drop_drop]
      congr 1
      omega
    rw [h1, List.take_append_drop, List.take_append_drop]
  rw [hsplit]
  apply Conditions_of_phases _ fn c rfl rfl
  · intro p hp
    obtain ⟨k, hk⟩ := List.getElem?_of_mem hp
    rw [List.getElem?_take] at hk
    split at hk
    · rw [hfn k p hk, if_neg (by omega)]
    · cases hk
  · intro p hp
    obtain ⟨k, hk⟩ := List.getElem?_of_mem hp
    rw [List.getElem?_take] at hk
    split at hk
    · rw [List.getElem?_drop] at hk
      rw [hfn _ p hk, if_pos (by omega)]
    · cases hk
  · intro p hp
    obtain ⟨k, hk⟩ := List.getElem?_of_mem hp
    rw [List.getElem?_drop] at hk
    rw [hfn _ p hk, if_neg (by omega)]
  · rw [List.head?_eq_getElem?, List.getElem?_take, if_pos (by omega), List.getElem?_drop]
    simpa using hpi
  · rw [List.getLast?_eq_getElem?, List.getElem?_take, List.length_take, List.length_drop,
      if_pos (by omega), List.getElem?_drop]
    have hidx : i - 1 + (min (j - i + 1) (passes.length - (i - 1)) - 1) = j - 1 := by omega
    rw [hidx]
    exact hpj

theorem Conditions_end_to_end_witness :
    (runPasses ((NewMonitorWithInterval 15 : Monitor Bool Nat).AddSampler
        (fun w _ => if w = true then [7] else [])) false demoPasses).1.Conditions 0 0 =
      [{ Condition := 7, From := 21, To := 51 }] := by
  have hfn : ∀ k p, demoPasses[k]? = some p →
      (fun (w : Bool) (_ : Time) => if w = true then [7] else []) p.world p.now =
        if 2 ≤ k + 1 ∧ k + 1 ≤ 5 then [7] else [] := by
    intro k p hk
    unfold demoPasses at hk
    rcases k with _ | _ | _ | _ | _ | _ | k <;> simp at hk <;> subst hk <;> simp
  exact Conditions_end_to_end 15 (fun w _ => if w = true then [7] else []) 7 demoPasses 2 5
    ⟨true, 20, 21⟩ ⟨true, 50, 51⟩ (by decide) (by decide) (by decide) hfn rfl rfl

/-! ### One sampling pass -/

theorem foldl_append_flatten {α β : Type} (g : α → List β) (l : List α) (init : List β) :
    l.foldl (fun acc a => acc ++ g a) init = init ++ (l.map g).flatten := by
  induction l generalizing init with
  | nil => simp
  | cons a l ih => rw [List.foldl_cons, ih]; simp

theorem sample_eq {W : Type} (m : Monitor W C) (w : W) (now t : Time) (hasPrevious : Bool) :
    m.sample w now t hasPrevious =
      if m.passConditions w now = [] ∧ hasPrevious = false then (m, false)
      else ({ m with samples := m.samples ++
            [{ at_ := t, conditions := m.passConditions w now }] },
          decide (m.passConditions w now ≠ [])) := by
  unfold Monitor.sample Monitor.passConditions
  simp only [foldl_append_flatten, List.nil_append]
  generalize (m.samplers.map (fun fn => fn w now)).flatten = cs
  cases cs with
  | nil => simp
  | cons c cs => simp

theorem sample_samplers {W : Type} (m : Monitor W C) (w : W) (now t : Time) (h : Bool) :
    (m.sample w now t h).1.samplers = m.samplers := by
  rw [sample_eq]
  split <;> rfl

theorem sample_events {W : Type} (m : Monitor W C) (w : W) (now t : Time) (h : Bool) :
    (m.sample w now t h).1.events = m.events := by
  rw [sample_eq]
  split <;> rfl

theorem sample_passConditions {W : Type} (m : Monitor W C) (w : W) (now t : Time) (h : Bool)
    (w2 : W) (now2 : Time) :
    (m.sample w now t h).1.passConditions w2 now2 = m.passConditions w2 now2 := by
  unfold Monitor.passConditions
  rw [sample_samplers]

/-! ### Runs of the sampling loop -/

theorem runPasses_samplers {W : Type} (m : Monitor W C) (h : Bool) (passes : List (Pass W)) :
    (runPasses m h passes).1.samplers = m.samplers := by
  induction passes generalizing m h with
  | nil => rfl
  | cons p ps ih => rw [runPasses, ih, sample_samplers]

theorem runPasses_events {W : Type} (m : Monitor W C) (h : Bool) (passes : List (Pass W)) :
    (runPasses m h passes).1.events = m.events := by
  induction passes generalizing m h with
  | nil => rfl
  | cons p ps ih => rw [runPasses, ih, sample_events]

theorem runPasses_passConditions {W : Type} (m : Monitor W C) (h : Bool)
    (passes : List (Pass W)) (w : W) (now : Time) :
    (runPasses m h passes).1.passConditions w now = m.passConditions w now := by
  unfold Monitor.passConditions
  rw [runPasses_samplers]

theorem allPasses_congr {W : Type} (m m2 : Monitor W C) (hs : m2.samplers = m.samplers)
    (passes : List (Pass W)) : allPasses m2 passes = allPasses m passes := by
  unfold allPasses Monitor.passConditions
  rw [hs]

/-- The stored samples of a run: the skip rule applied to the samples of all passes. -/
theorem runPasses_samples {W : Type} (m : Monitor W C) (h : Bool) (passes : List (Pass W)) :
    (runPasses m h passes).1.samples = m.samples ++ skipEmpty (!h) (allPasses m passes) := by
  induction passes generalizing m h with
  | nil => simp [runPasses, allPasses, skipEmpty]
  | cons p ps ih =>
    rw [runPasses, ih, sample_eq]
    by_cases hskip : m.passConditions p.world p.now = [] ∧ h = false
    · rw [if_pos hskip]
      obtain ⟨hcs, hh⟩ := hskip
      subst hh
      simp [allPasses, skipEmpty, hcs]
    · rw [if_neg hskip]
      have hall : allPasses
          ({ m with samples := m.samples ++
            [{ at_ := p.t, conditions := m.passConditions p.world p.now }] } : Monitor W C) ps =
          allPasses m ps := allPasses_congr m _ rfl ps
      simp only [hall]
      by_cases hcs : m.passConditions p.world p.now = []
      · have hh : h = true := by
          cases h with
          | true => rfl
          | false => exact absurd ⟨hcs, rfl⟩ hskip
        subst hh
        simp [allPasses, skipEmpty, hcs]
      · cases h <;> simp [allPasses, skipEmpty, hcs]

theorem skipEmpty_sublist (quiet : Bool) (l : List (Sample C)) :
    (skipEmpty quiet l).Sublist l := by
  induction l generalizing quiet with
  | nil => exact List.Sublist.refl _
  | cons s rest ih =>
    unfold skipEmpty
    split
    · split
      · exact (ih true).cons _
      · exact (ih true).cons₂ _
    · exact (ih false).cons₂ _

theorem skipEmpty_chain (quiet : Bool) (l : List (Sample C)) :
    (skipEmpty quiet l).Chain' (fun a b => ¬ (a.conditions = [] ∧ b.conditions = [])) ∧
      (quiet = true → ∀ s, (skipEmpty quiet l).head? = some s → s.conditions ≠ []) := by
  induction l generalizing quiet with
  | nil => simp [skipEmpty]
  | cons s rest ih =>
    unfold skipEmpty
    by_cases hs : s.conditions.length = 0
    · rw [if_pos hs]
      cases quiet with
      | true =>
        rw [if_pos rfl]
        exact ih true
      | false =>
        rw [if_neg (by simp)]
        refine ⟨?_, fun h => by cases h⟩
        rw [List.chain'_cons']
        refine ⟨?_, (ih true).1⟩
        intro y hy hboth
        exact (ih true).2 rfl y hy hboth.2
    · rw [if_neg hs]
      have hne : s.conditions ≠ [] := fun h => hs (by rw [h]; rfl)
      refine ⟨?_, ?_⟩
      · rw [List.chain'_cons']
        refine ⟨?_, (ih false).1⟩
        intro y _ hboth
        exact hne hboth.1
      · intro _ s' hs'
        simp only [List.head?_cons, Option.some.injEq] at hs'
        rw [← hs']
        exact hne

/-! ### `From ≤ To` -/

theorem le_runEnd (c : C) (t : Time) (rest : List (Sample C))
    (hle : ∀ s ∈ rest, t ≤ s.at_) (hsorted : rest.Pairwise (fun a b => a.at_ ≤ b.at_)) :
    t ≤ runEnd c t rest := by
  induction rest generalizing t with
  | nil => exact le_refl _
  | cons s rest ih =>
    rw [List.pairwise_cons] at hsorted
    unfold runEnd
    by_cases hc : c ∈ s.conditions
    · rw [if_pos hc]
      exact le_trans (hle s (List.mem_cons_self _ _)) (ih s.at_ hsorted.1 hsorted.2)
    · rw [if_neg hc]

theorem mergeSpec_from_le_to (prev : List C) (l : List (Sample C))
    (hsorted : l.Pairwise (fun a b => a.at_ ≤ b.at_)) :
    ∀ iv ∈ mergeSpec prev l, iv.From ≤ iv.To := by
  induction l generalizing prev with
  | nil => intro iv h; simp [mergeSpec] at h
  | cons s rest ih =>
    rw [List.pairwise_cons] at hsorted
    intro iv h
    unfold mergeSpec at h
    rcases List.mem_append.mp h with h | h
    · obtain ⟨_, _, hfrom, hto⟩ := mem_opened _ _ _ _ _ h
      rcases hto with hto | hto
      · rw [hfrom, hto]
      · rw [hfrom, hto]
        exact le_runEnd _ _ _ hsorted.1 hsorted.2
    · exact ih _ hsorted.2 iv h

/-! ### The interval of a condition of the last sample -/

theorem mapAt_modify {m : C → Option Nat} {ivs : List (EventInterval C)} {t : Time}
    (h : MapAt m ivs t) (p : Nat) : MapAt m (ivs.modify (fun iv => { iv with To := t }) p) t := by
  intro c q hq
  obtain ⟨iv, hiv, hc, hto⟩ := h c q hq
  rw [List.getElem?_modify, hiv]
  by_cases hpq : p = q
  · exact ⟨{ iv with To := t }, by simp [hpq], hc, rfl⟩
  · exact ⟨iv, by simp [hpq], hc, hto⟩

theorem mapAt_append {m : C → Option Nat} {ivs : List (EventInterval C)} {t : Time}
    (h : MapAt m ivs t) (l : List (EventInterval C)) : MapAt m (ivs ++ l) t := by
  intro c q hq
  obtain ⟨iv, hiv, hc⟩ := h c q hq
  refine ⟨iv, ?_, hc⟩
  rw [List.getElem?_append_left (getElem?_lt_length hiv)]
  exact hiv

theorem foldl_mergeCondition_mapAt (at_ : Time) (cs : List C) (st : MergeState C)
    (hl : MapOk st.last st.intervals) (hn : MapAt st.next st.intervals at_) :
    MapAt (cs.foldl (mergeCondition at_) st).next (cs.foldl (mergeCondition at_) st).intervals
      at_ := by
  induction cs generalizing st with
  | nil => exact hn
  | cons c cs ih =>
    rw [List.foldl_cons]
    apply ih
    · unfold mergeCondition
      split
      · exact hl.modify at_ _
      · exact hl.append _
    · unfold mergeCondition
      split
      · rename_i p hp
        intro c2 q hq
        simp only [Function.update_apply] at hq
        split at hq
        · rename_i hcc
          have hqp : p = q := Option.some.inj hq
          subst hqp
          subst hcc
          obtain ⟨iv, hiv, hc⟩ := hl c2 p hp
          refine ⟨{ iv with To := at_ }, ?_, hc, rfl⟩
          rw [List.getElem?_modify, hiv]
          simp
        · exact (mapAt_modify hn p) c2 q hq
      · rename_i hp
        intro c2 q hq
        simp only [Function.update_apply] at hq
        split at hq
        · rename_i hcc
          cases hq
          subst hcc
          refine ⟨{ Condition := c2, From := at_, To := at_ }, ?_, rfl, rfl⟩
          simp
        · exact (mapAt_append hn _) c2 q hq

theorem foldl_mergeSample_mapOk (l : List (Sample C)) (st : MergeState C)
    (hl : MapOk st.last st.intervals) (hn : st.next = fun _ => none) :
    MapOk (l.foldl mergeSample st).last (l.foldl mergeSample st).intervals ∧
      (l.foldl mergeSample st).next = fun _ => none := by
  induction l generalizing st with
  | nil => exact ⟨hl, hn⟩
  | cons s rest ih =>
    rw [List.foldl_cons]
    apply ih
    · exact foldl_mergeCondition_mapOk s.at_ s.conditions st hl
        (by rw [hn]; intro c p h; cases h)
    · rfl

theorem mergeSamples_last (l : List (Sample C)) (s : Sample C) (c : C)
    (hc : c ∈ s.conditions) :
    ∃ iv ∈ mergeSamples (l ++ [s]), iv.Condition = c ∧ iv.To = s.at_ := by
  unfold mergeSamples
  rw [List.foldl_append, List.foldl_cons, List.foldl_nil]
  obtain ⟨hl, hn⟩ := foldl_mergeSample_mapOk l
    ({ intervals := [], last := fun _ => none, next := fun _ => none } : MergeState C)
    (by intro c p h; cases h) rfl
  generalize l.foldl mergeSample
    ({ intervals := [], last := fun _ => none, next := fun _ => none } : MergeState C) = st
    at hl hn
  have hat := foldl_mergeCondition_mapAt s.at_ s.conditions st hl
    (by rw [hn]; intro c p h; cases h)
  have hsome := foldl_mergeCondition_isSome s.at_ s.conditions st c
  rw [decide_eq_true hc, Bool.true_or] at hsome
  obtain ⟨p, hp⟩ := Option.isSome_iff_exists.mp hsome
  obtain ⟨iv, hiv, hcond, hto⟩ := hat c p hp
  exact ⟨iv, List.getElem?_mem hiv, hcond, hto⟩

theorem filterSamples_zero_mergeSamples (samples : List (Sample C)) :
    filterSamples samples 0 0 = mergeSamples samples := by
  rw [filterSamples_zero, mergeSamples_eq_mergeSpec]

/-! ### The loop of `StartSampling` -/

theorem foldl_loopStep_returned {W : Type} (st : LoopState W C) (hret : st.returned = true)
    (inputs : List (LoopInput W)) : inputs.foldl loopStep st = st := by
  induction inputs with
  | nil => rfl
  | cons input inputs ih =>
    rw [List.foldl_cons]
    have : loopStep st input = st := by simp [loopStep, hret]
    rw [this, ih]

theorem foldl_loopStep_ticks {W : Type} (m : Monitor W C) (h : Bool) (n : Nat)
    (ticks : List (Pass W)) :
    (ticks.map LoopInput.tick).foldl loopStep
        { m := m, hasConditions := h, returned := false, passes := n } =
      { m := (runPasses m h ticks).1, hasConditions := (runPasses m h ticks).2,
        returned := false, passes := n + ticks.length } := by
  induction ticks generalizing m h n with
  | nil => rfl
  | cons p ps ih =>
    rw [List.map_cons, List.foldl_cons]
    have hstep : loopStep { m := m, hasConditions := h, returned := false, passes := n }
        (LoopInput.tick p) =
        { m := (m.sample p.world p.now p.t h).1, hasConditions := (m.sample p.world p.now p.t h).2,
          returned := false, passes := n + 1 } := by
      simp [loopStep]
    rw [hstep, ih, runPasses]
    simp only [List.length_cons]
    congr 1
    omega

/-! ### Skipped passes and the merge -/

theorem runEnd_skipEmpty (c : C) (t : Time) (l : List (Sample C)) :
    runEnd c t (skipEmpty false l) = runEnd c t l := by
  induction l generalizing t with
  | nil => rfl
  | cons s rest ih =>
    unfold skipEmpty
    by_cases hs : s.conditions.length = 0
    · have hnil : s.conditions = [] := List.length_eq_zero.mp hs
      rw [if_pos hs, if_neg (by simp)]
      simp [runEnd, hnil]
    · rw [if_neg hs]
      unfold runEnd
      rw [ih]

theorem mergeSpec_skipEmpty (prev : List C) (quiet : Bool) (l : List (Sample C))
    (hq : quiet = true → prev = []) :
    mergeSpec prev (skipEmpty quiet l) = mergeSpec prev l := by
  induction l generalizing prev quiet with
  | nil => rfl
  | cons s rest ih =>
    unfold skipEmpty
    by_cases hs : s.conditions.length = 0
    · have hnil : s.conditions = [] := List.length_eq_zero.mp hs
      rw [if_pos hs]
      cases quiet with
      | true =>
        rw [if_pos rfl, ih prev true hq, hq rfl]
        conv_rhs => rw [mergeSpec, hnil]
        simp [opened]
      | false =>
        rw [if_neg (by simp)]
        rw [mergeSpec, mergeSpec, hnil, ih [] true (fun _ => rfl)]
        rfl
    · rw [if_neg hs, mergeSpec, mergeSpec, ih s.conditions false (fun h => by cases h)]
      congr 2
      funext c
      exact runEnd_skipEmpty c s.at_ rest

theorem filter_skipEmpty_nil (p : Sample C → Bool) (quiet : Bool) (l : List (Sample C))
    (h : ∀ s ∈ l, p s = false) : (skipEmpty quiet l).filter p = [] := by
  rw [List.filter_eq_nil_iff]
  intro s hs
  rw [h s ((skipEmpty_sublist quiet l).subset hs)]
  simp

/-- The window filter on sorted samples commutes with the skip rule, up to the skip rule. -/
theorem skipEmpty_filter_skipEmpty (from_ to_ : Time) (l : List (Sample C))
    (hsorted : l.Pairwise (fun a b => a.at_ ≤ b.at_)) (q q2 : Bool) (hq : q = true → q2 = true)
    (hin : q2 = false → ∀ s ∈ l, from_ = 0 ∨ from_ < s.at_) :
    skipEmpty q2 ((skipEmpty q l).filter (fun s =>
        decide ((from_ = 0 ∨ from_ < s.at_) ∧ (to_ = 0 ∨ s.at_ ≤ to_)))) =
      skipEmpty q2 (l.filter (fun s =>
        decide ((from_ = 0 ∨ from_ < s.at_) ∧ (to_ = 0 ∨ s.at_ ≤ to_)))) := by
  induction l generalizing q q2 with
  | nil => rfl
  | cons s rest ih =>
    rw [List.pairwise_cons] at hsorted
    obtain ⟨hle, hrest⟩ := hsorted
    -- once a sample past the lower bound is outside the window, so are all later ones
    have hout : (from_ = 0 ∨ from_ < s.at_) →
        ¬ ((from_ = 0 ∨ from_ < s.at_) ∧ (to_ = 0 ∨ s.at_ ≤ to_)) →
        ∀ x ∈ rest, decide ((from_ = 0 ∨ from_ < x.at_) ∧ (to_ = 0 ∨ x.at_ ≤ to_)) = false := by
      intro hlo hw x hx
      rw [decide_eq_false_iff_not]
      rintro ⟨_, hhi⟩
      apply hw
      refine ⟨hlo, ?_⟩
      rcases hhi with h | h
      · exact Or.inl h
      · exact Or.inr (le_trans (hle x hx) h)
    have hlater : (from_ = 0 ∨ from_ < s.at_) → ∀ x ∈ rest, from_ = 0 ∨ from_ < x.at_ := by
      intro hlo x hx
      rcases hlo with h | h
      · exact Or.inl h
      · exact Or.inr (lt_of_lt_of_le h (hle x hx))
    by_cases hw : (from_ = 0 ∨ from_ < s.at_) ∧ (to_ = 0 ∨ s.at_ ≤ to_)
    · -- the first sample is in the window
      by_cases hs : s.conditions.length = 0
      · cases q with
        | true =>
          have hq2 : q2 = true := hq rfl
          subst hq2
          rw [List.filter_cons_of_pos (by simpa using hw)]
          simp only [skipEmpty, hs, if_true]
          exact ih hrest true true (fun h => h) (fun h => by cases h)
        | false =>
          simp only [skipEmpty, hs, if_true, Bool.false_eq_true, if_false]
          rw [List.filter_cons_of_pos (by simpa using hw),
            List.filter_cons_of_pos (by simpa using hw)]
          simp only [skipEmpty, hs, if_true]
          rw [ih hrest true true (fun h => h) (fun h => by cases h)]
      · simp only [skipEmpty, hs, if_false]
        rw [List.filter_cons_of_pos (by simpa using hw),
          List.filter_cons_of_pos (by simpa using hw)]
        simp only [skipEmpty, hs, if_false]
        rw [ih hrest false false (fun h => by cases h) (fun _ => hlater hw.1)]
    · -- the first sample is outside the window
      have hrec : ∀ q1 : Bool, (q1 = true → q2 = true) →
          skipEmpty q2 ((skipEmpty q1 rest).filter (fun s =>
            decide ((from_ = 0 ∨ from_ < s.at_) ∧ (to_ = 0 ∨ s.at_ ≤ to_)))) =
          skipEmpty q2 (rest.filter (fun s =>
            decide ((from_ = 0 ∨ from_ < s.at_) ∧ (to_ = 0 ∨ s.at_ ≤ to_)))) := by
        intro q1 hq1
        cases hq2 : q2 with
        | true =>
          subst hq2
          exact ih hrest q1 true (fun _ => rfl) (fun h => by cases h)
        | false =>
          subst hq2
          exact ih hrest q1 false hq1
            (fun _ x hx => hin rfl x (List.mem_cons_of_mem _ hx))
      rw [List.filter_cons_of_neg (by simpa using hw)]
      by_cases hs : s.conditions.length = 0
      · cases q with
        | true =>
          simp only [skipEmpty, hs, if_true]
          exact hrec true hq
        | false =>
          simp only [skipEmpty, hs, if_true, Bool.false_eq_true, if_false]
          rw [List.filter_cons_of_neg (by simpa using hw)]
          cases hq2 : q2 with
          | true =>
            subst hq2
            exact ih hrest true true (fun _ => rfl) (fun h => by cases h)
          | false =>
            subst hq2
            have hlo := hin rfl s (List.mem_cons_self _ _)
            rw [filter_skipEmpty_nil _ true rest (hout hlo hw),
              List.filter_eq_nil_iff.mpr (fun x hx => by rw [hout hlo hw x hx]; simp)]
      · simp only [skipEmpty, hs, if_false]
        rw [List.filter_cons_of_neg (by simpa using hw)]
        exact hrec false (fun h => by cases h)

/-! ### The trimming never faults -/

theorem indexChecked_natCast {α : Type} (s : List α) (k : Nat) :
    indexChecked s (k : Int) = s[k]? := by
  simp [indexChecked]

theorem sliceChecked_natCast {α : Type} (s : List α) (lo hi : Nat) (h1 : lo ≤ hi)
    (h2 : hi ≤ s.length) :
    sliceChecked s (lo : Int) (hi : Int) = some ((s.take hi).drop lo) := by
  unfold sliceChecked
  rw [if_pos ⟨by omega, by omega, by omega⟩]
  simp

theorem searchLoopChecked_eq (f : Int → Option Bool) (g : Nat → Bool) (n : Nat)
    (hf : ∀ k, k < n → f (k : Int) = some (g k)) (fuel i j : Nat) (hjn : j ≤ n)
    (hfuel : j - i ≤ fuel) :
    searchLoopChecked f fuel i j = some (searchLoop g fuel i j) := by
  induction fuel generalizing i j with
  | zero =>
    have hij : ¬ i < j := by omega
    simp [searchLoopChecked, searchLoop, hij]
  | succ fuel ih =>
    unfold searchLoopChecked searchLoop
    by_cases hlt : i < j
    · simp only [hlt, if_true]
      have hh : (i + j) / 2 < j := by omega
      have hfh := hf ((i + j) / 2) (by omega)
      simp only [Int.natCast_ediv, Int.natCast_add, Int.Nat.cast_ofNat_Int] at hfh ⊢
      rw [hfh]
      cases g ((i + j) / 2) with
      | true =>
        simp only [Bool.not_true, Bool.false_eq_true, if_false]
        exact ih i ((i + j) / 2) (by omega) (by omega)
      | false =>
        simp only [Bool.not_false, if_true]
        exact ih ((i + j) / 2 + 1) j hjn (by omega)
    · simp only [hlt, if_false]

theorem SearchChecked_eq (f : Int → Option Bool) (g : Nat → Bool) (n : Nat)
    (hf : ∀ k, k < n → f (k : Int) = some (g k)) :
    SearchChecked n f = some (Search n g) := by
  unfold SearchChecked Search
  rw [searchLoopChecked_eq f g n hf n 0 n (Nat.le_refl _) (by omega)]
  rfl

theorem Search_bounds (n : Nat) (f : Nat → Bool) : 0 ≤ Search n f ∧ Search n f ≤ n := by
  unfold Search
  have := searchLoop_bounds f n 0 n (Nat.zero_le _)
  omega

theorem cutAfterChecked_eq (samples : List (Sample C)) (to_ : Time)
    (pre remaining : List (Sample C)) (hsplit : samples = pre ++ remaining)
    (hpre : ∀ s ∈ pre, (!s.at_.After to_) = true) :
    cutAfterChecked samples to_ remaining pre.length =
      some (samples.takeWhile (fun s => !s.at_.After to_)) := by
  induction remaining generalizing pre with
  | nil =>
    unfold cutAfterChecked
    rw [hsplit, List.append_nil, List.takeWhile_eq_self_iff.mpr hpre]
  | cons s remaining ih =>
    unfold cutAfterChecked
    by_cases hs : s.at_.After to_ = true
    · rw [if_pos hs]
      have hlen : pre.length ≤ samples.length := by rw [hsplit]; simp
      have := sliceChecked_natCast samples 0 pre.length (Nat.zero_le _) hlen
      simp only [Nat.cast_zero] at this
      rw [this, hsplit, List.takeWhile_append_of_pos hpre,
        List.takeWhile_cons_of_neg (by simp [hs])]
      simp
    · rw [if_neg hs]
      have := ih (pre ++ [s]) (by rw [hsplit]; simp) (by
        intro x hx
        rcases List.mem_append.mp hx with h | h
        · exact hpre x h
        · rw [List.mem_singleton.mp h]
          simpa using hs)
      simpa using this

theorem trimSamplesChecked_eq (samples : List (Sample C)) (from_ to_ : Time) :
    trimSamplesChecked samples from_ to_ = some (trimSamples samples from_ to_) := by
  unfold trimSamplesChecked trimSamples
  have hsearch := SearchChecked_eq
    (fun i => (indexChecked samples i).map (fun s => s.at_.After from_))
    (sampleAfter samples from_) samples.length (by
      intro k hk
      simp only [indexChecked_natCast, sampleAfter, List.getElem?_eq_getElem hk, Option.map_some'])
  have hb := Search_bounds samples.length (sampleAfter samples from_)
  have hslice : sliceChecked samples (Search samples.length (sampleAfter samples from_))
      samples.length =
      some (samples.drop (Search samples.length (sampleAfter samples from_)).toNat) := by
    have := sliceChecked_natCast samples
      (Search samples.length (sampleAfter samples from_)).toNat samples.length
      (by omega) (Nat.le_refl _)
    rw [Int.toNat_of_nonneg hb.1] at this
    rw [this, List.take_length]
  have hcut : ∀ l : List (Sample C),
      cutAfterChecked l to_ l 0 = some (l.takeWhile (fun s => !s.at_.After to_)) :=
    fun l => cutAfterChecked_eq l to_ [] l rfl (fun s h => by cases h)
  simp only [hsearch, Search_ne_neg_one, if_false, hslice, Option.map_some']
  by_cases hfrom : from_.IsZero = true <;> by_cases hto : to_.IsZero = true <;>
    simp [hfrom, hto, hcut]

theorem filterSamplesChecked_eq (samples : List (Sample C)) (from_ to_ : Time) :
    filterSamplesChecked samples from_ to_ = some (filterSamples samples from_ to_) := by
  unfold filterSamplesChecked filterSamples
  rw [trimSamplesChecked_eq]
  by_cases hlen : samples.length = 0
  · simp [hlen]
  · simp only [hlen, if_false]
    cases trimSamples samples from_ to_ with
    | none => rfl
    | some l =>
      by_cases hl : l.length = 0
      · simp [hl]
      · simp [hl]

theorem drop_take_same {α : Type} (l : List α) (n : Nat) : (l.take n).drop n = [] := by
  apply List.drop_eq_nil_of_le
  rw [List.length_take]
  exact Nat.min_le_left _ _

theorem scanEventsChecked_eq (events : List (Event C)) (to_ : Time) (first : Nat)
    (fuel i : Nat) (hfi : first ≤ i) (hi : i ≤ events.length) (hfuel : events.length - i ≤ fuel)
    (hpre : ∀ e ∈ (events.take i).drop first, (!e.At.After to_) = true) :
    scanEventsChecked events to_ (first : Int) fuel i =
      some ((events.take i).drop first ++
        (events.drop i).takeWhile (fun e => !e.At.After to_)) := by
  have hend : ∀ k, first ≤ k → k = events.length →
      sliceChecked events (first : Int) events.length =
        some ((events.take k).drop first ++
          (events.drop k).takeWhile (fun e => !e.At.After to_)) := by
    intro k hk h
    subst h
    rw [sliceChecked_natCast events first events.length hk (Nat.le_refl _)]
    simp
  induction fuel generalizing i with
  | zero =>
    have hlen : i = events.length := by omega
    unfold scanEventsChecked
    rw [if_neg (by omega)]
    exact hend i hfi hlen
  | succ fuel ih =>
    unfold scanEventsChecked
    by_cases hlt : i < events.length
    · rw [if_pos hlt, indexChecked_natCast, List.getElem?_eq_getElem hlt]
      simp only []
      have hdrop : events.drop i = events[i] :: events.drop (i + 1) :=
        List.drop_eq_getElem_cons hlt
      by_cases he : events[i].At.After to_ = true
      · rw [if_pos he, sliceChecked_natCast events first i hfi hi, hdrop,
          List.takeWhile_cons_of_neg (by simp [he])]
        simp
      · rw [if_neg he]
        have htake : (events.take (i + 1)).drop first =
            (events.take i).drop first ++ [events[i]] := by
          rw [List.take_succ, List.getElem?_eq_getElem hlt, Option.toList_some,
            List.drop_append_of_le_length (by rw [List.length_take]; omega)]
        rw [ih (i + 1) (by omega) (by omega) (by omega) (by
            rw [htake]
            intro x hx
            rcases List.mem_append.mp hx with h | h
            · exact hpre x h
            · rw [List.mem_singleton.mp h]
              simpa using he),
          htake, hdrop, List.takeWhile_cons_of_pos (by simpa using he)]
        simp
    · rw [if_neg hlt]
      exact hend i hfi (by omega)

theorem filterEventsChecked_eq (events : List (Event C)) (from_ to_ : Time) :
    filterEventsChecked events from_ to_ = some (filterEvents events from_ to_) := by
  unfold filterEventsChecked filterEvents
  have hsearch := SearchChecked_eq
    (fun i => (indexChecked events i).map (fun e => e.At.After from_))
    (eventAfter events from_) events.length (by
      intro k hk
      simp only [indexChecked_natCast, eventAfter, List.getElem?_eq_getElem hk, Option.map_some'])
  have hb := Search_bounds events.length (eventAfter events from_)
  have hcast : ((Search events.length (eventAfter events from_)).toNat : Int) =
      Search events.length (eventAfter events from_) := Int.toNat_of_nonneg hb.1
  have hslice : sliceChecked events (Search events.length (eventAfter events from_))
      events.length =
      some (events.drop (Search events.length (eventAfter events from_)).toNat) := by
    have := sliceChecked_natCast events
      (Search events.length (eventAfter events from_)).toNat events.length
      (by omega) (Nat.le_refl _)
    rw [hcast] at this
    rw [this, List.take_length]
  have hscan := scanEventsChecked_eq events to_
    (Search events.length (eventAfter events from_)).toNat events.length
    (Search events.length (eventAfter events from_)).toNat (Nat.le_refl _) (by omega) (by omega)
    (by
      intro e he
      rw [drop_take_same] at he
      cases he)
  rw [hcast, drop_take_same, List.nil_append] at hscan
  by_cases hboth : from_.IsZero = true ∧ to_.IsZero = true
  · rw [if_pos hboth, if_pos hboth]
  · rw [if_neg hboth, if_neg hboth]
    simp only [hsearch, Search_ne_neg_one, if_false]
    by_cases hto : to_.IsZero = true
    · rw [if_pos hto, if_pos hto, hslice]
    · rw [if_neg hto, if_neg hto, if_neg (by omega), hscan]

theorem searchLoop_all_false (f : Nat → Bool) (n : Nat) (hf : ∀ k, k < n → f k = false) :
    searchLoop f n 0 n = n := by
  have hb := searchLoop_bounds f n 0 n (Nat.zero_le _)
  have hspec := searchLoop_spec f n
    (by
      intro a b hab hb' ha
      rw [hf a (by omega)] at ha
      cases ha)
    n 0 n (Nat.zero_le _) (Nat.le_refl _) (by omega) (by intro k hk; omega)
    (by intro k hk hkn; omega)
  by_contra hne
  have hlt : searchLoop f n 0 n < n := by omega
  have := hspec.2 _ (Nat.le_refl _) hlt
  rw [hf _ hlt] at this
  cases this

theorem Search_all_false (f : Nat → Bool) (n : Nat) (hf : ∀ k, k < n → f k = false) :
    (Search n f).toNat = n := by
  rw [Search_toNat, searchLoop_all_false f n hf]

theorem filterEvents_infix (events : List (Event C)) (from_ to_ : Time) :
    filterEvents events from_ to_ <:+: events := by
  unfold filterEvents
  simp only [Search_ne_neg_one, if_false]
  split
  · exact List.infix_refl _
  · split
    · exact (List.drop_suffix _ _).isInfix
    · exact (List.takeWhile_prefix _).isInfix.trans (List.drop_suffix _ _).isInfix

/-! ### The interval of a maximal run, whatever the samples list -/

theorem mem_opened_last (isOpen : C → Bool) (at_ : Time) (ext : C → Time) (cs : List C)
    (c : C) (hc : c ∈ cs) (ho : isOpen c = false) :
    ({ Condition := c, From := at_, To := ext c } : EventInterval C) ∈
      opened isOpen at_ ext cs := by
  induction cs with
  | nil => simp at hc
  | cons c0 cs ih =>
    unfold opened
    by_cases hin : c ∈ cs
    · have := ih hin
      by_cases ho0 : isOpen c0 = true
      · rw [if_pos ho0]
        exact this
      · rw [if_neg ho0]
        exact List.mem_cons_of_mem _ this
    · have hcc : c = c0 := by
        rcases List.mem_cons.mp hc with h | h
        · exact h
        · exact absurd h hin
      subst hcc
      rw [if_neg (by simp [ho]), if_neg hin]
      exact List.mem_cons_self _ _

/-- The interval of every maximal run is returned, also when samples repeat a condition. -/
theorem mem_mergeSpec_of_run (samples : List (Sample C)) (prev : List C) (c : C) (i j : Nat)
    (si sj : Sample C) (hrun : IsMaximalRun samples c i j) (hprev : i = 0 → c ∉ prev)
    (hi : samples[i]? = some si) (hj : samples[j]? = some sj) :
    ({ Condition := c, From := si.at_, To := sj.at_ } : EventInterval C) ∈
      mergeSpec prev samples := by
  induction samples generalizing prev i j with
  | nil => simp at hi
  | cons s rest ih =>
    obtain ⟨hij, hjlen, hall, hbefore, hend⟩ := hrun
    unfold mergeSpec
    rw [List.mem_append]
    cases i with
    | zero =>
      left
      simp only [List.getElem?_cons_zero, Option.some.injEq] at hi
      subst hi
      have hto : runEnd c s.at_ rest = sj.at_ := by
        apply runEnd_eq_of_run c s rest j sj hj
        · intro k s2 hk hkj hs2
          exact hall k s2 (Nat.zero_le _) hkj hs2
        · exact hend
      rw [← hto]
      exact mem_opened_last (fun c => decide (c ∈ prev)) s.at_ (fun c => runEnd c s.at_ rest)
        s.conditions c (hall 0 s (Nat.le_refl _) (Nat.zero_le _) (by simp))
        (by simpa using hprev rfl)
    | succ i =>
      right
      cases j with
      | zero => omega
      | succ j =>
        apply ih s.conditions i j
        · refine ⟨by omega, by simpa using hjlen, ?_, ?_, ?_⟩
          · intro k s2 hik hkj hs2
            exact hall (k + 1) s2 (by omega) (by omega) (by simpa using hs2)
          · intro s2 hpos hs2
            apply hbefore s2 (by omega)
            have : i + 1 - 1 = (i - 1) + 1 := by omega
            rw [this]
            simpa using hs2
          · intro s2 hs2
            exact hend s2 (by simpa using hs2)
        · intro hi0
          subst hi0
          exact hbefore s (by omega) (by simp)
        · simpa using hi
        · simpa using hj

/-- A condition of the last sample has a maximal run that ends at the last sample. -/
theorem exists_final_run (l : List (Sample C)) (s : Sample C) (c : C)
    (hc : c ∈ s.conditions) :
    ∃ i si, IsMaximalRun (l ++ [s]) c i l.length ∧ (l ++ [s])[i]? = some si := by
  induction l with
  | nil =>
    refine ⟨0, s, ⟨Nat.le_refl _, by simp, ?_, ?_, ?_⟩, by simp⟩
    · intro k s2 _ hk hs2
      have hk0 : k = 0 := by simpa using hk
      subst hk0
      simp only [List.nil_append, List.getElem?_cons_zero, Option.some.injEq] at hs2
      subst hs2
      exact hc
    · intro s2 h0
      omega
    · intro s2 hs2
      simp at hs2
  | cons s0 l ih =>
    obtain ⟨i, si, ⟨hij, hjlen, hall, hbefore, hend⟩, hi⟩ := ih
    have hendc : ∀ s2, (s0 :: l ++ [s])[(s0 :: l).length + 1]? = some s2 →
        c ∉ s2.conditions := by
      intro s2 hs2
      exact hend s2 (by simpa using hs2)
    by_cases hstart : i = 0 ∧ c ∈ s0.conditions
    · obtain ⟨hi0, hc0⟩ := hstart
      subst hi0
      refine ⟨0, s0, ⟨Nat.zero_le _, by simp, ?_, ?_, hendc⟩, by simp⟩
      · intro k s2 _ hk hs2
        cases k with
        | zero =>
          simp only [List.cons_append, List.getElem?_cons_zero, Option.some.injEq] at hs2
          subst hs2
          exact hc0
        | succ k =>
          exact hall k s2 (Nat.zero_le _) (by simpa using hk) (by simpa using hs2)
      · intro s2 h0
        omega
    · refine ⟨i + 1, si, ⟨by simpa using hij, by simp, ?_, ?_, hendc⟩, by simpa using hi⟩
      · intro k s2 hik hk hs2
        cases k with
        | zero => omega
        | succ k =>
          exact hall k s2 (by omega) (by simpa using hk) (by simpa using hs2)
      · intro s2 _ hs2
        cases i with
        | zero =>
          simp only [Nat.zero_add, Nat.sub_self, List.cons_append, List.getElem?_cons_zero,
            Option.some.injEq] at hs2
          subst hs2
          exact fun h => hstart ⟨rfl, h⟩
        | succ i =>
          exact hbefore s2 (by omega) (by simpa using hs2)

/-- The store keeps only events stamped after the zero time when the clock readings handed to
`Record` are. -/
theorem Record_events_after_zero {W : Type} (m : Monitor W C) (t : Time) (conditions : List C)
    (hm : ∀ e ∈ m.events, 0 < e.At) (ht : 0 < t) :
    ∀ e ∈ (m.Record t conditions).events, 0 < e.At := by
  have hfold : ∀ (cs : List C) (events : List (Event C)), (∀ e ∈ events, 0 < e.At) →
      ∀ e ∈ cs.foldl
        (fun events condition => events ++ [{ At := t, Condition := condition }]) events,
        0 < e.At := by
    intro cs
    induction cs with
    | nil => intro events h; exact h
    | cons c cs ih =>
      intro events h
      rw [List.foldl_cons]
      apply ih
      intro e he
      rcases List.mem_append.mp he with h1 | h1
      · exact h e h1
      · rw [List.mem_singleton.mp h1]
        exact ht
  unfold Monitor.Record
  split
  · exact hm
  · exact hfold conditions m.events hm

/-! ## Record -/

/-- C11 (record). `Record` with no condition leaves the store as it is.  `Record(c_1..c_n)`
keeps the stored events as a prefix and appends exactly `n` events in argument order, event
`k` carrying `c_k`, all with the same timestamp; samples, samplers and interval do not
change. -/
theorem Record_appends {W : Type} (m : Monitor W C) (t : Time) (conditions : List C) :
    m.Record t [] = m ∧
      (m.Record t conditions).events =
        m.events ++ conditions.map (fun c => { At := t, Condition := c }) ∧
      (m.Record t conditions).samples = m.samples ∧
      (m.Record t conditions).samplers = m.samplers ∧
      (m.Record t conditions).interval = m.interval := by
  have hfold : ∀ (cs : List C) (events : List (Event C)),
      cs.foldl (fun events condition => events ++ [{ At := t, Condition := condition }]) events =
        events ++ cs.map (fun c => { At := t, Condition := c }) := by
    intro cs
    induction cs with
    | nil => intro events; simp
    | cons c cs ih => intro events; rw [List.foldl_cons, ih]; simp
  refine ⟨by simp [Monitor.Record], ?_, ?_, ?_, ?_⟩
  · unfold Monitor.Record
    by_cases h : conditions.length = 0
    · have hnil : conditions = [] := List.length_eq_zero.mp h
      subst hnil
      simp
    · simp only [h, if_false]
      exact hfold conditions m.events
  all_goals
    unfold Monitor.Record
    split <;> rfl

/-! ## Idempotent empty sampling -/

/-- C12 (idempotent empty sampling). In every state reached from the empty store with
`hasConditions = false` by a sequence of sampling passes, whatever the samplers return: no two
adjacent stored samples are both without conditions, and the first stored sample, if any, has
a condition.  From such a state, two consecutive passes that both return no condition append
at most one sample together, and a pass returning no condition right after a pass that
returned some appends exactly one sample, an empty one. -/
theorem empty_sampling_idempotent {W : Type} (m : Monitor W C) (hempty : m.samples = [])
    (passes : List (Pass W)) :
    (runPasses m false passes).1.samples.Chain'
        (fun a b => ¬ (a.conditions = [] ∧ b.conditions = [])) ∧
      (∀ s, (runPasses m false passes).1.samples.head? = some s → s.conditions ≠ []) ∧
      (∀ p q : Pass W, m.passConditions p.world p.now = [] →
        m.passConditions q.world q.now = [] →
        ∃ l, (runPasses m false (passes ++ [p, q])).1.samples =
            (runPasses m false passes).1.samples ++ l ∧ l.length ≤ 1) ∧
      (∀ p q : Pass W, m.passConditions p.world p.now ≠ [] →
        m.passConditions q.world q.now = [] →
        (runPasses m false (passes ++ [p, q])).1.samples =
          (runPasses m false (passes ++ [p])).1.samples ++
            [{ at_ := q.t, conditions := [] }]) := by
  have hstored := runPasses_samples m false passes
  rw [hempty, List.nil_append] at hstored
  refine ⟨?_, ?_, ?_, ?_⟩
  · rw [hstored]
    exact (skipEmpty_chain _ _).1
  · rw [hstored]
    exact (skipEmpty_chain _ _).2 rfl
  · intro p q hp hq
    have hs := runPasses_samplers m false passes
    unfold Monitor.passConditions at hp hq
    rw [runPasses_append]
    cases hh : (runPasses m false passes).2 with
    | true =>
      refine ⟨[{ at_ := p.t, conditions := [] }], ?_, by simp⟩
      simp [runPasses, sample_eq, Monitor.passConditions, hs, hp, hq]
    | false =>
      refine ⟨[], ?_, by simp⟩
      simp [runPasses, sample_eq, Monitor.passConditions, hs, hp, hq]
  · intro p q hp hq
    have hs := runPasses_samplers m false passes
    unfold Monitor.passConditions at hp hq
    rw [runPasses_append, runPasses_append]
    simp [runPasses, sample_eq, Monitor.passConditions, hs, hp, hq]

theorem empty_sampling_idempotent_witness :
    worldMonitor.samples = [] ∧
      (runPasses worldMonitor false quietPasses).1.samples =
        [⟨3, [7]⟩, ⟨4, []⟩, ⟨6, [7, 8]⟩, ⟨7, []⟩] ∧
      (runPasses worldMonitor false quietPasses).1.samples.Chain'
        (fun a b => ¬ (a.conditions = [] ∧ b.conditions = [])) ∧
      worldMonitor.passConditions [] 4 = [] ∧ worldMonitor.passConditions [] 5 = [] ∧
      (∃ l, (runPasses worldMonitor false
            ([⟨[], 1, 1⟩, ⟨[], 2, 2⟩, ⟨[7], 3, 3⟩] ++ [⟨[], 4, 4⟩, ⟨[], 5, 5⟩])).1.samples =
          (runPasses worldMonitor false [⟨[], 1, 1⟩, ⟨[], 2, 2⟩, ⟨[7], 3, 3⟩]).1.samples ++ l ∧
          l.length ≤ 1) ∧
      worldMonitor.passConditions [7] 3 ≠ [] ∧
      (runPasses worldMonitor false
          ([⟨[], 1, 1⟩, ⟨[], 2, 2⟩] ++ [⟨[7], 3, 3⟩, ⟨[], 4, 4⟩])).1.samples =
        (runPasses worldMonitor false ([⟨[], 1, 1⟩, ⟨[], 2, 2⟩] ++ [⟨[7], 3, 3⟩])).1.samples ++
          [{ at_ := 4, conditions := [] }] :=
  ⟨rfl, by decide, (empty_sampling_idempotent worldMonitor rfl quietPasses).1,
    by decide, by decide,
    (empty_sampling_idempotent worldMonitor rfl
      [⟨[], 1, 1⟩, ⟨[], 2, 2⟩, ⟨[7], 3, 3⟩]).2.2.1 ⟨[], 4, 4⟩ ⟨[], 5, 5⟩ (by decide) (by decide),
    by decide,
    (empty_sampling_idempotent worldMonitor rfl
      [⟨[], 1, 1⟩, ⟨[], 2, 2⟩]).2.2.2 ⟨[7], 3, 3⟩ ⟨[], 4, 4⟩ (by decide) (by decide)⟩

/-! ## Final pass on cancellation -/

/-- C13, as stated for every non-zero interval, fails: with the interval `-1` the goroutine
panics in `time.NewTicker` before the loop is entered, so the closing of the context is not
followed by any sampling pass. -/
theorem StartSampling_negative_interval_counterexample :
    negativeIntervalMonitor.interval ≠ 0 ∧
      (negativeIntervalMonitor.StartSampling [LoopInput.cancel ⟨(), 1, 1⟩]).isNone = true := by
  decide

/-- C13, amended (final pass on cancellation). With an interval greater than zero, the loop of
`StartSampling`, fed ticks and then the closing of the context, never faults.  Every tick
performs exactly one sampling pass: after `n` ticks the goroutine is still running, has called
`sample` `n` times and holds the store and the `hasConditions` of these `n` passes.  The first
cancel performs exactly one more pass, fed the `hasConditions` of the pass before, and the
goroutine returns: whatever comes later changes nothing.  Consequently a condition `c` the
samplers report in the final pass has its interval extended to the final pass: the stored
samples end with a maximal run of samples containing `c`, and `Conditions(zero, zero)` holds
the interval of `c` from the timestamp of the first sample of that run to the timestamp of the
final pass. -/
theorem final_pass_on_cancel {W : Type} (m : Monitor W C) (hinterval : 0 < m.interval)
    (ticks : List (Pass W)) (p : Pass W) (rest : List (LoopInput W)) :
    m.StartSampling (ticks.map LoopInput.tick) =
        some { m := (runPasses m false ticks).1, hasConditions := (runPasses m false ticks).2,
               returned := false, passes := ticks.length } ∧
      m.StartSampling (ticks.map LoopInput.tick ++ LoopInput.cancel p :: rest) =
        some { m := ((runPasses m false ticks).1.sample p.world p.now p.t
                (runPasses m false ticks).2).1,
               hasConditions := ((runPasses m false ticks).1.sample p.world p.now p.t
                (runPasses m false ticks).2).2,
               returned := true, passes := ticks.length + 1 } ∧
      ∀ c ∈ m.passConditions p.world p.now,
        ((runPasses m false ticks).1.sample p.world p.now p.t
            (runPasses m false ticks).2).1.samples =
          (runPasses m false ticks).1.samples ++
            [{ at_ := p.t, conditions := m.passConditions p.world p.now }] ∧
        ∃ i si,
          IsMaximalRun ((runPasses m false ticks).1.samples ++
              [{ at_ := p.t, conditions := m.passConditions p.world p.now }]) c i
            (runPasses m false ticks).1.samples.length ∧
          ((runPasses m false ticks).1.samples ++
              [{ at_ := p.t, conditions := m.passConditions p.world p.now }])[i]? = some si ∧
          ({ Condition := c, From := si.at_, To := p.t } : EventInterval C) ∈
            ((runPasses m false ticks).1.sample p.world p.now p.t
              (runPasses m false ticks).2).1.Conditions 0 0 := by
  have hne : m.interval ≠ 0 := ne_of_gt hinterval
  have hnn : ¬ m.interval < 0 := not_lt.mpr (le_of_lt hinterval)
  have hticks := foldl_loopStep_ticks m false 0 ticks
  rw [Nat.zero_add] at hticks
  refine ⟨?_, ?_, ?_⟩
  · unfold Monitor.StartSampling
    rw [if_neg hne, if_neg hnn, hticks]
  · unfold Monitor.StartSampling
    rw [if_neg hne, if_neg hnn, List.foldl_append, hticks, List.foldl_cons]
    have hstep : loopStep
        { m := (runPasses m false ticks).1, hasConditions := (runPasses m false ticks).2,
          returned := false, passes := ticks.length } (LoopInput.cancel p) =
        { m := ((runPasses m false ticks).1.sample p.world p.now p.t
            (runPasses m false ticks).2).1,
          hasConditions := ((runPasses m false ticks).1.sample p.world p.now p.t
            (runPasses m false ticks).2).2,
          returned := true, passes := ticks.length + 1 } := by
      simp [loopStep]
    rw [hstep, foldl_loopStep_returned _ rfl rest]
  · intro c hc
    have hpc := runPasses_passConditions m false ticks p.world p.now
    have hnil : m.passConditions p.world p.now ≠ [] := List.ne_nil_of_mem hc
    have hsamples : ((runPasses m false ticks).1.sample p.world p.now p.t
          (runPasses m false ticks).2).1.samples =
        (runPasses m false ticks).1.samples ++
          [{ at_ := p.t, conditions := m.passConditions p.world p.now }] := by
      rw [sample_eq, hpc, if_neg (fun h => hnil h.1)]
    refine ⟨hsamples, ?_⟩
    obtain ⟨i, si, hrun, hi⟩ := exists_final_run (runPasses m false ticks).1.samples
      { at_ := p.t, conditions := m.passConditions p.world p.now } c hc
    refine ⟨i, si, hrun, hi, ?_⟩
    unfold Monitor.Conditions Monitor.snapshot
    rw [hsamples, filterSamples_zero]
    exact mem_mergeSpec_of_run _ [] c i _ si
      { at_ := p.t, conditions := m.passConditions p.world p.now } hrun
      (fun _ => List.not_mem_nil _) hi (by simp)

theorem final_pass_on_cancel_witness :
    0 < worldMonitor.interval ∧
      (worldMonitor.StartSampling
          ([⟨[], 1, 1⟩, ⟨[7], 2, 2⟩, ⟨[7], 3, 3⟩].map LoopInput.tick ++
            LoopInput.cancel ⟨[7], 4, 4⟩ :: [LoopInput.tick ⟨[7], 5, 5⟩])).map
        (fun st => (st.m.samples, st.m.Conditions 0 0, st.returned, st.passes)) =
        some ([⟨2, [7]⟩, ⟨3, [7]⟩, ⟨4, [7]⟩], [{ Condition := 7, From := 2, To := 4 }],
          true, 4) :=
  ⟨by decide, by
    rw [(final_pass_on_cancel worldMonitor (by decide)
      [⟨[], 1, 1⟩, ⟨[7], 2, 2⟩, ⟨[7], 3, 3⟩] ⟨[7], 4, 4⟩ [LoopInput.tick ⟨[7], 5, 5⟩]).2.1]
    decide⟩

/-! ## Monotonic samples -/

/-- C14, as stated, fails: the timestamp of a sample is the reading of the wall clock at the
time of the pass, and nothing orders the readings.  Two passes that both report a condition,
the first reading 5 and the second reading 3 (the clock was set back in between), leave the
samples stamped 5 and 3, in that order. -/
theorem samples_not_monotonic_counterexample :
    twoSamplerMonitor.samples = [] ∧
      (runPasses twoSamplerMonitor false [⟨1, 5, 5⟩, ⟨2, 3, 3⟩]).1.samples =
        [⟨5, [7, 7]⟩, ⟨3, [7]⟩] ∧
      ¬ (runPasses twoSamplerMonitor false [⟨1, 5, 5⟩, ⟨2, 3, 3⟩]).1.samples.Pairwise
        (fun a b => a.at_ < b.at_) := by
  decide

/-- C14, amended (monotonic samples). After any sequence of sampling passes from the empty
store, the timestamps of the stored samples are, in storage order, a subsequence of the clock
readings of the passes (samples are only appended, each stamped with the reading of its pass);
so when the readings increase strictly from pass to pass, the timestamps of the stored samples
are strictly increasing. -/
theorem samples_monotonic {W : Type} (m : Monitor W C) (hempty : m.samples = [])
    (h : Bool) (passes : List (Pass W)) :
    ((runPasses m h passes).1.samples.map (fun s => s.at_)).Sublist
        (passes.map (fun p => p.t)) ∧
      (passes.Pairwise (fun p q => p.t < q.t) →
        (runPasses m h passes).1.samples.Pairwise (fun a b => a.at_ < b.at_)) := by
  have hstored := runPasses_samples m h passes
  rw [hempty, List.nil_append] at hstored
  have hsub : ((runPasses m h passes).1.samples.map (fun s => s.at_)).Sublist
      (passes.map (fun p => p.t)) := by
    rw [hstored]
    have h1 := (skipEmpty_sublist (!h) (allPasses m passes)).map (fun s => s.at_)
    have h2 : (allPasses m passes).map (fun s => s.at_) = passes.map (fun p => p.t) := by
      simp [allPasses]
    rw [h2] at h1
    exact h1
  refine ⟨hsub, ?_⟩
  intro hsorted
  have hp : (passes.map (fun p => p.t)).Pairwise (fun a b => a < b) := by
    rw [List.pairwise_map]
    exact hsorted
  have := hp.sublist hsub
  rw [List.pairwise_map] at this
  exact this

theorem samples_monotonic_witness :
    twoSamplerMonitor.samples = [] ∧
      ([⟨1, 1, 1⟩, ⟨2, 2, 2⟩] : List (Pass Nat)).Pairwise (fun p q => p.t < q.t) ∧
      (runPasses twoSamplerMonitor false [⟨1, 1, 1⟩, ⟨2, 2, 2⟩]).1.samples.Pairwise
        (fun a b => a.at_ < b.at_) :=
  ⟨rfl, by decide, (samples_monotonic twoSamplerMonitor rfl false [⟨1, 1, 1⟩, ⟨2, 2, 2⟩]).2
    (by decide)⟩

/-! ## `From ≤ To` -/

/-- C15 (`From ≤ To`). For a store whose samples have non-decreasing timestamps and every
window, every interval returned by `Conditions` and every interval returned by
`EventIntervals` (for a sort meeting the contract of `sort.Sort`) has `From ≤ To`. -/
theorem intervals_from_le_to {W : Type}
    (sort : List (EventInterval C) → List (EventInterval C)) (hsort : SortContract sort)
    (m : Monitor W C) (from_ to_ : Time)
    (hsorted : m.samples.Pairwise (fun a b => a.at_ ≤ b.at_)) :
    (∀ iv ∈ m.Conditions from_ to_, iv.From ≤ iv.To) ∧
      (∀ iv ∈ m.EventIntervals sort from_ to_, iv.From ≤ iv.To) := by
  obtain ⟨l, hl, hinfix⟩ := trimSamples_eq_some m.samples from_ to_
  have hcond : filterSamples m.samples from_ to_ = mergeSpec [] l :=
    filterSamples_of_trim m.samples l from_ to_ hl
  have h1 : ∀ iv ∈ filterSamples m.samples from_ to_, iv.From ≤ iv.To := by
    rw [hcond]
    exact mergeSpec_from_le_to [] l (hsorted.sublist hinfix.sublist)
  have h2 : ∀ iv ∈ filterSamples m.samples from_ to_ ++
      (filterEvents m.events from_ to_).map eventInterval, iv.From ≤ iv.To := by
    intro iv hiv
    rcases List.mem_append.mp hiv with h | h
    · exact h1 iv h
    · obtain ⟨e, _, he⟩ := List.mem_map.mp h
      rw [← he, eventInterval_eq]
  refine ⟨h1, ?_⟩
  intro iv hiv
  by_cases hnil : filterSamples m.samples from_ to_ = []
  · rw [EventIntervals_of_nil sort m from_ to_ hnil] at hiv
    exact h2 iv (List.mem_append_right _ hiv)
  · rw [EventIntervals_of_ne_nil sort m from_ to_ hnil] at hiv
    exact h2 iv ((hsort _).1.mem_iff.mp hiv)

theorem intervals_from_le_to_witness :
    SortContract (sortByFrom (C := Nat)) ∧
      demoMonitor.samples.Pairwise (fun a b => a.at_ ≤ b.at_) ∧
      ((∀ iv ∈ demoMonitor.Conditions 1 3, iv.From ≤ iv.To) ∧
        (∀ iv ∈ demoMonitor.EventIntervals sortByFrom 1 3, iv.From ≤ iv.To)) :=
  ⟨sortByFrom_contract, by decide,
    intervals_from_le_to sortByFrom sortByFrom_contract demoMonitor 1 3 (by decide)⟩

/-! ## Sampling pass -/

/-- C16 (sampling pass). `sample(hasPrevious)` takes as the conditions of the pass the outputs
of the registered samplers, each called once with the same timestamp, concatenated in
registration order (`AddSampler` registers at the end).  When that list is empty and
`hasPrevious` is false, the store is unchanged and the result is false.  Otherwise exactly
one sample carrying those conditions is appended, earlier samples, events and samplers are
unchanged, and the result is true exactly when the list is not empty. -/
theorem sampling_pass_contract {W : Type} (m : Monitor W C) (w : W) (now t : Time) (hasPrevious : Bool) :
    (∀ fn : SamplerFunc W C, (m.AddSampler fn).samplers = m.samplers ++ [fn]) ∧
      ((m.samplers.map (fun fn => fn w now)).flatten = [] ∧ hasPrevious = false →
        m.sample w now t hasPrevious = (m, false)) ∧
      (¬ ((m.samplers.map (fun fn => fn w now)).flatten = [] ∧ hasPrevious = false) →
        m.sample w now t hasPrevious =
          ({ interval := m.interval, samplers := m.samplers, events := m.events,
             samples := m.samples ++
               [{ at_ := t, conditions := (m.samplers.map (fun fn => fn w now)).flatten }] },
            decide ((m.samplers.map (fun fn => fn w now)).flatten ≠ []))) := by
  refine ⟨fun fn => rfl, ?_, ?_⟩
  · intro h
    rw [sample_eq, Monitor.passConditions, if_pos h]
  · intro h
    rw [sample_eq, Monitor.passConditions, if_neg h]

/-! ## Skipped passes -/

/-- C18 (skipping empty passes does not change the timeline). For every sequence of sampling
passes with strictly increasing timestamps, run from the empty store with
`hasConditions = false`, and every window, `Conditions(from, to)` on the samples actually
stored (an empty pass after an empty pass is skipped) is the same sequence of intervals as
`filterSamples` applied to the samples of all the passes. -/
theorem skipped_passes_same_timeline {W : Type} (m : Monitor W C) (hempty : m.samples = [])
    (passes : List (Pass W)) (hsorted : passes.Pairwise (fun p q => p.t < q.t))
    (from_ to_ : Time) :
    (runPasses m false passes).1.Conditions from_ to_ =
      filterSamples (allPasses m passes) from_ to_ := by
  have hstored := runPasses_samples m false passes
  rw [hempty, List.nil_append] at hstored
  have hfull : (allPasses m passes).Pairwise (fun a b => a.at_ ≤ b.at_) := by
    unfold allPasses
    rw [List.pairwise_map]
    exact hsorted.imp (fun h => le_of_lt h)
  have hst : (skipEmpty true (allPasses m passes)).Pairwise (fun a b => a.at_ ≤ b.at_) :=
    hfull.sublist (skipEmpty_sublist _ _)
  unfold Monitor.Conditions Monitor.snapshot
  rw [hstored]
  simp only [Bool.not_false]
  rw [filterSamples_of_trim _ _ from_ to_ (trimSamples_of_sorted _ from_ to_ hst),
    filterSamples_of_trim _ _ from_ to_ (trimSamples_of_sorted _ from_ to_ hfull),
    ← mergeSpec_skipEmpty [] true _ (fun _ => rfl),
    skipEmpty_filter_skipEmpty from_ to_ _ hfull true true (fun h => h) (fun h => by cases h),
    mergeSpec_skipEmpty [] true _ (fun _ => rfl)]

theorem skipped_passes_same_timeline_witness :
    worldMonitor.samples = [] ∧
      quietPasses.Pairwise (fun p q => p.t < q.t) ∧
      (runPasses worldMonitor false quietPasses).1.samples =
        [⟨3, [7]⟩, ⟨4, []⟩, ⟨6, [7, 8]⟩, ⟨7, []⟩] ∧
      (allPasses worldMonitor quietPasses).length = 7 ∧
      filterSamples (allPasses worldMonitor quietPasses) 4 6 =
        [{ Condition := 7, From := 6, To := 6 }, { Condition := 8, From := 6, To := 6 }] ∧
      (runPasses worldMonitor false quietPasses).1.Conditions 4 6 =
        filterSamples (allPasses worldMonitor quietPasses) 4 6 :=
  ⟨rfl, by decide, by decide, by decide, by decide,
    skipped_passes_same_timeline worldMonitor rfl quietPasses (by decide) 4 6⟩

/-! ## Totality of the window trimming -/

/-- C19 (totality of the window trimming). For every sample and event sequence, sorted or
not, empty or not, and every window: `filterSamples` and `filterEvents`, run with every index
and slice expression checked, never fault and return what the unchecked functions return; the
index found by the binary search lies in `0..len`, so the `first == -1` branch is never taken;
when every timestamp is at or before a non-zero `from` the result is empty; and the events
returned are a run of consecutive events of the input, in the same order. -/
theorem trimming_total (samples : List (Sample C)) (events : List (Event C))
    (from_ to_ : Time) :
    filterSamplesChecked samples from_ to_ = some (filterSamples samples from_ to_) ∧
      filterEventsChecked events from_ to_ = some (filterEvents events from_ to_) ∧
      (∀ (n : Nat) (f : Nat → Bool), 0 ≤ Search n f ∧ Search n f ≤ n ∧ Search n f ≠ -1) ∧
      (from_ ≠ 0 → (∀ s ∈ samples, s.at_ ≤ from_) → filterSamples samples from_ to_ = []) ∧
      (from_ ≠ 0 → (∀ e ∈ events, e.At ≤ from_) → filterEvents events from_ to_ = []) ∧
      filterEvents events from_ to_ <:+: events := by
  refine ⟨filterSamplesChecked_eq samples from_ to_, filterEventsChecked_eq events from_ to_,
    fun n f => ⟨(Search_bounds n f).1, (Search_bounds n f).2, Search_ne_neg_one n f⟩,
    ?_, ?_, filterEvents_infix events from_ to_⟩
  · intro hfrom hall
    have hsearch := Search_all_false (sampleAfter samples from_) samples.length (by
      intro k hk
      unfold sampleAfter
      rw [List.getElem?_eq_getElem hk]
      simp only [Time.After, decide_eq_false_iff_not, not_lt]
      exact hall _ (List.getElem_mem hk))
    have htrim : trimSamples samples from_ to_ = some [] := by
      unfold trimSamples
      simp only [Search_ne_neg_one, if_false, hsearch, List.drop_length]
      by_cases hto : to_.IsZero = true <;> simp [Time.IsZero, hfrom, hto]
    rw [filterSamples_of_trim samples [] from_ to_ htrim]
    rfl
  · intro hfrom hall
    have hsearch := Search_all_false (eventAfter events from_) events.length (by
      intro k hk
      unfold eventAfter
      rw [List.getElem?_eq_getElem hk]
      simp only [Time.After, decide_eq_false_iff_not, not_lt]
      exact hall _ (List.getElem_mem hk))
    unfold filterEvents
    simp only [Search_ne_neg_one, if_false, hsearch, List.drop_length]
    have hz : ¬ (from_.IsZero = true ∧ to_.IsZero = true) := by
      simp [Time.IsZero, hfrom]
    rw [if_neg hz]
    split <;> rfl

end monitor

namespace openshift_tests

theorem matchFn_eq_false (skips : List GoString) (name : GoString) :
    matchFn skips name = false ↔ ∃ skip ∈ skips, skip <:+: name := by
  induction skips with
  | nil => simp [matchFn]
  | cons skip rest ih =>
    unfold matchFn
    by_cases h : Contains name skip = true
    · rw [if_pos h]
      simp only [Contains, decide_eq_true_eq] at h
      simp [h]
    · rw [if_neg h, ih]
      simp only [Contains, decide_eq_true_eq] at h
      simp [h]

theorem foldl_skips (ids : List GoString) (skips : List GoString) :
    ids.foldl (fun skips id => skips ++ [lit "[Skipped:Network/" ++ id ++ lit "]"]) skips =
      skips ++ ids.map (fun id => lit "[Skipped:Network/" ++ id ++ lit "]") := by
  induction ids generalizing skips with
  | nil => simp
  | cons id ids ih => rw [List.foldl_cons, ih]; simp

/-- C17 (provider skip matching). For every cluster configuration (provider name `P`, network
plugin ids `N`) and every test name, the function returned by `getProviderMatchFn` returns
false exactly when the name contains `[Skipped:P]` or contains `[Skipped:Network/id]` for some
`id` in `N`, and true otherwise; so a name with no matching skip tag is accepted. -/
theorem getProviderMatchFn_skips (config : ClusterConfiguration) (name : GoString) :
    (getProviderMatchFn config name = false ↔
        ((lit "[Skipped:" ++ config.ProviderName ++ lit "]") <:+: name ∨
          ∃ id ∈ config.NetworkPluginIDs,
            (lit "[Skipped:Network/" ++ id ++ lit "]") <:+: name)) ∧
      (getProviderMatchFn config name = true ↔
        ¬ ((lit "[Skipped:" ++ config.ProviderName ++ lit "]") <:+: name ∨
          ∃ id ∈ config.NetworkPluginIDs,
            (lit "[Skipped:Network/" ++ id ++ lit "]") <:+: name)) := by
  have hfalse : getProviderMatchFn config name = false ↔
      ((lit "[Skipped:" ++ config.ProviderName ++ lit "]") <:+: name ∨
        ∃ id ∈ config.NetworkPluginIDs,
          (lit "[Skipped:Network/" ++ id ++ lit "]") <:+: name) := by
    unfold getProviderMatchFn
    simp only [foldl_skips, matchFn_eq_false, List.nil_append, List.singleton_append,
      List.mem_cons, List.mem_map]
    constructor
    · rintro ⟨skip, h | ⟨id, hid, h⟩, hin⟩
      · left
        rw [← h]
        exact hin
      · right
        exact ⟨id, hid, by rw [h]; exact hin⟩
    · rintro (h | ⟨id, hid, h⟩)
      · exact ⟨_, Or.inl rfl, h⟩
      · exact ⟨_, Or.inr ⟨id, hid, rfl⟩, h⟩
  refine ⟨hfalse, ?_⟩
  rw [← hfalse]
  cases getProviderMatchFn config name <;> simp

end openshift_tests
